import Mathlib

/-!
Verification development for the Indic scene-text tokenizers
(`hinditokenizer.py`, `malayalamtokenizer.py`).

Strings are modelled as `List Char`; a label is scanned left to right
exactly as the Python code does.  The Python class-index dictionaries
(`rev_h_c_label_map` …) have the three sentinel strings "[E]", "[P]", "[B]"
and single characters as keys; a single character can never equal one of the
three-character sentinel strings, so character membership in those maps is
membership in the plain character lists, and the class index of a character
is its position in the list shifted by the number of leading sentinels.
All characters appearing in the Hindi and Malayalam tables are NFKD-stable
(the precomposed nukta consonants that decompose are not in the tables), so
`unicodedata.normalize("NFKD", ·)` is the identity on every table entry and
is not modelled separately.
-/

namespace Hindi

/-- Consonant list `self.vyanjan` of `HindiTokenizer`. -/
def vyanjan : List Char :=
  ['क', 'ख', 'ग', 'घ', 'ङ',
   'च', 'छ', 'ज', 'झ', 'ञ',
   'ट', 'ठ', 'ड', 'ढ', 'ण',
   'त', 'थ', 'द', 'ध', 'न',
   'प', 'फ', 'ब', 'भ', 'म',
   'य', 'र', 'ल', 'ळ', 'व', 'श',
   'ष', 'स', 'ह']

/-- Vowel list `self.svar`. -/
def svar : List Char :=
  ['अ', 'आ', 'इ', 'ई', 'उ',
   'ऊ', 'ऋ', 'ॠ', 'ए', 'ऐ',
   'ओ', 'औ', 'ॲ', 'ऍ', 'ऑ']

/-- Diacritic list `self.matras`. -/
def matras : List Char :=
  ['ा', 'ि', 'ी', 'ु', 'ू', 'ृ', 'े', 'ै', 'ो', 'ौ', 'ॅ', 'ॉ', 'ँ', 'ं', 'ः', '़']

/-- Punctuation list `self.chinh`. -/
def chinh : List Char :=
  ['ॐ', '₹', '।', '!', '$', ',', '.', '-', '%', '॥', 'ॽ']

/-- Digit list `self.ank`. -/
def ank : List Char := ['०', '१', '२', '३', '४', '५', '६', '७', '८', '९']

/-- The halant / virama character `self.halanth`. -/
def halanth : Char := '्'

/-- The character-valued keys of `rev_f_c_label_map`: full-character
candidates, in class order (`vyanjan + svar + ank + chinh`). -/
def fullChars : List Char := vyanjan ++ svar ++ ank ++ chinh

/-- Class index 0, `self.eos_id`. -/
def eosId : Nat := 0

/-- Class index 1, `self.pad_id`. -/
def padId : Nat := 1

/-- Class index 2, `self.blank_id`. -/
def blankId : Nat := 2

/-- Number of diacritic classes `len(self.d_classes)` = 2 sentinels + 16. -/
def dClassesLen : Nat := 2 + matras.length

/-- One half-character consumption step of `label_transform`
(`_check_h_c` plus the two-character consumption): succeeds when the first
character is a consonant and the second is the halant. -/
def takeHC (l : List Char) : List Char × List Char :=
  match l with
  | c1 :: c2 :: r => if c1 ∈ vyanjan ∧ c2 = halanth then ([c1, c2], r) else ([], l)
  | _ => ([], l)

/-- One full-character consumption step (`_check_f_c` plus consumption):
the character is a full-character candidate and is last or not followed by
the halant. -/
def takeFC (l : List Char) : List Char × List Char :=
  match l with
  | c :: r => if c ∈ fullChars ∧ r.head? ≠ some halanth then ([c], r) else ([], l)
  | [] => ([], l)

/-- One diacritic consumption step (`_check_d_c` plus consumption). -/
def takeDC (l : List Char) : List Char × List Char :=
  match l with
  | c :: r => if c ∈ matras then ([c], r) else ([], l)
  | [] => ([], l)

/-- One iteration of the `label_transform` scan loop: up to two
half-characters, then at most one full character, then up to two
diacritics.  (The Python code attempts the second half-character /
diacritic only after the first succeeded; when the first fails the second
attempt happens at the same position and fails identically, so the
unconditional composition is the same function.)  Returns the consumed
group and the remaining suffix. -/
def consumeGrp (l : List Char) : List Char × List Char :=
  let p1 := takeHC l
  let p2 := takeHC p1.2
  let p3 := takeFC p2.2
  let p4 := takeDC p3.2
  let p5 := takeDC p4.2
  (p1.1 ++ p2.1 ++ p3.1 ++ p4.1 ++ p5.1, p5.2)

/-- The scan loop of `label_transform`, with explicit fuel so the
recursion is structural (each successful iteration consumes at least one
character, so `fuel = length` never runs out; see
`labelTransformAux_fuel`).  `none` models the `return ()` taken when an
iteration consumes nothing. -/
def labelTransformAux : Nat → List Char → Option (List (List Char))
  | _, [] => some []
  | 0, _ :: _ => none
  | fuel + 1, c :: cs =>
    if (consumeGrp (c :: cs)).1 = [] then none
    else (labelTransformAux fuel (consumeGrp (c :: cs)).2).map ((consumeGrp (c :: cs)).1 :: ·)

/-- One step of the `grp_sanity` scan for a character that is not consumed
as a half-character pair: the `elif` chain on full characters and
diacritics.  Returns the updated `(h_c_count, f_c_count, d_c_count,
d_seen)` state, or `none` for the duplicate-diacritic `return False`.
The final `else` branch of the Python code only prints a diagnostic and
continues, so it leaves the state unchanged. -/
def sanityStep (c : Char) (h f d : Int) (seen : List Char) :
    Option (Int × Int × Int × List Char) :=
  if c ∈ fullChars ∧ f > 0 then some (h, f - 1, d, seen)
  else if c ∈ matras ∧ d = 2 then some (h, f, d - 1, seen ++ [c])
  else if c ∈ matras ∧ d ≠ 2 ∧ c ∉ seen then some (h, f, d - 1, seen)
  else if c ∈ matras ∧ d ≠ 2 ∧ c ∈ seen then none
  else some (h, f, d, seen)

/-- The `while` loop of `grp_sanity` over one group.  The first branch
(consonant followed by halant, with `h_c_count > 0`) consumes two
characters; every other branch consumes one.  Returns the final counts, or
`none` for an in-loop `return False`. -/
def sanityScan : List Char → Int → Int → Int → List Char → Option (Int × Int × Int)
  | [], h, f, d, _ => some (h, f, d)
  | [c], h, f, d, seen =>
    match sanityStep c h f d seen with
    | none => none
    | some (h', f', d', _) => some (h', f', d')
  | c :: c2 :: rest, h, f, d, seen =>
    if c2 = halanth ∧ c ∈ vyanjan ∧ h > 0 then
      sanityScan rest (h - 1) f d seen
    else
      match sanityStep c h f d seen with
      | none => none
      | some (h', f', d', seen') => sanityScan (c2 :: rest) h' f' d' seen'

/-- Verdict of `grp_sanity` for a single group: scan with initial counts
`(2, 1, 2)`, then reject when no full character was consumed
(`f_c_count == 1`) or nothing was consumed at all (`(2, 1, 2)`). -/
def grpOK (g : List Char) : Bool :=
  match sanityScan g 2 1 2 [] with
  | none => false
  | some (h, f, d) => if f = 1 ∨ (h = 2 ∧ f = 1 ∧ d = 2) then false else true

/-- `HindiTokenizer.grp_sanity` (the `label` argument of the Python method
is only interpolated into diagnostic prints and does not influence the
result, so it is omitted). -/
def grpSanity (grps : List (List Char)) : Bool := grps.all grpOK

/-- `HindiTokenizer.label_transform`: scan the label into groups, then
return them if `grp_sanity` passes and the empty tuple otherwise.  A
mid-scan failure also returns the empty tuple. -/
def labelTransform (l : List Char) : List (List Char) :=
  match labelTransformAux l.length l with
  | none => []
  | some gs => if grpSanity gs then gs else []

/-- Class index of a consonant in `rev_h_c_label_map`
(3 sentinels precede the consonants). -/
def revHC (c : Char) : Nat := 3 + vyanjan.indexOf c

/-- Class index of a full character in `rev_f_c_label_map`
(2 sentinels precede the characters). -/
def revFC (c : Char) : Nat := 2 + fullChars.indexOf c

/-- Class index of a diacritic in `rev_d_label_map`
(2 sentinels precede the diacritics). -/
def revD (c : Char) : Nat := 2 + matras.indexOf c

/-- The character loop of `grp_class_encoder`.  State: half-character-2
and half-character-1 class targets, full-character target (`-1` = unset),
diacritic multi-hot vector, halant counter.  `none` models a failed
`assert` or a raised exception. -/
def encScan : List Char → Nat → Nat → Int → List Nat → Nat → Option (Nat × Nat × Int × List Nat)
  | [], h2, h1, f, dv, _ => some (h2, h1, f, dv)
  | c :: rest, h2, h1, f, dv, cntr =>
    if c ∈ vyanjan ∧ rest.head? = some halanth then
      if h1 = blankId then encScan rest h2 (revHC c) f dv cntr
      else encScan rest h1 (revHC c) f dv cntr
    else if c ∈ fullChars then
      if f = -1 then encScan rest h2 h1 (revFC c) dv cntr else none
    else if c ∈ matras then
      if dv.getD (revD c) 1 = 0 then encScan rest h2 h1 f (dv.set (revD c) 1) cntr
      else none
    else if c = halanth ∧ cntr < 2 then encScan rest h2 h1 f dv (cntr + 1)
    else none

/-- `HindiTokenizer.grp_class_encoder`: run the scan from the blank /
unset state, then enforce the trailing asserts (a full character occurred,
at most two diacritic bits are set). -/
def grpClassEncoder (g : List Char) : Option (Nat × Nat × Nat × List Nat) :=
  match encScan g blankId blankId (-1) (List.replicate dClassesLen 0) 0 with
  | none => none
  | some (h2, h1, f, dv) =>
    if f = -1 then none
    else if dv.sum ≤ 2 then some (h2, h1, f.toNat, dv) else none

/-- In-place indexed assignment loop `for idx, grp in enumerate(grps):
arr[idx] = …`, starting at position `i`. -/
def writeFrom {α : Type} : List α → Nat → List α → List α
  | arr, _, [] => arr
  | arr, i, v :: vs => writeFrom (arr.set i v) (i + 1) vs

/-- The fixed-width output of `label_encoder`: the two half-character
heads, the full-character head, the diacritic multi-hot rows, and the
returned `len(grps)`. -/
structure EncodedLabel where
  h2 : List Nat
  h1 : List Nat
  fC : List Nat
  diac : List (List Nat)
  cnt : Nat
deriving DecidableEq

/-- `HindiTokenizer.label_encoder` with `max_grps` explicit (constructor
default 25).  The arrays start as PAD everywhere with the PAD column of
every diacritic row set; when the group count is below `max_grps` the EOS
sentinel is written at index `group_count` (for the diacritic head only
the EOS bit is set, the PAD bit is not cleared), otherwise the groups are
truncated; then each group's encoding is written at its index.  `none`
models an exception escaping `grp_class_encoder`. -/
def labelEncoder (l : List Char) (maxGrps : Nat) : Option EncodedLabel :=
  let grps := labelTransform l
  let base : List Nat := List.replicate maxGrps padId
  let dRow : List Nat := (List.replicate dClassesLen 0).set padId 1
  if grps.length < maxGrps then
    match grps.mapM grpClassEncoder with
    | none => none
    | some encs =>
      some { h2 := writeFrom (base.set grps.length eosId) 0 (encs.map (fun e => e.1)),
             h1 := writeFrom (base.set grps.length eosId) 0 (encs.map (fun e => e.2.1)),
             fC := writeFrom (base.set grps.length eosId) 0 (encs.map (fun e => e.2.2.1)),
             diac := writeFrom ((List.replicate maxGrps dRow).set grps.length
                       (dRow.set eosId 1)) 0 (encs.map (fun e => e.2.2.2)),
             cnt := grps.length }
  else
    match (grps.take maxGrps).mapM grpClassEncoder with
    | none => none
    | some encs =>
      some { h2 := writeFrom base 0 (encs.map (fun e => e.1)),
             h1 := writeFrom base 0 (encs.map (fun e => e.2.1)),
             fC := writeFrom base 0 (encs.map (fun e => e.2.2.1)),
             diac := writeFrom (List.replicate maxGrps dRow) 0 (encs.map (fun e => e.2.2.2)),
             cnt := (grps.take maxGrps).length }

/-- Alphabet of the decoder's class tables: the three sentinel strings
"[E]", "[P]", "[B]" are atomic tokens (no real character sequence can form
them, so the final `str.replace` of the Python code removes exactly the
blank and pad tokens and the `EOS in grp` test detects exactly the eos
token). -/
inductive Tok where
  | eos : Tok
  | pad : Tok
  | blank : Tok
  | ch : Char → Tok
deriving DecidableEq

/-- `self.h_c_classes` as a token list. -/
def hClasses : List Tok := [Tok.eos, Tok.pad, Tok.blank] ++ vyanjan.map Tok.ch

/-- `self.f_c_classes` as a token list. -/
def fClasses : List Tok := [Tok.eos, Tok.pad] ++ fullChars.map Tok.ch

/-- `self.d_classes` as a token list. -/
def dClasses : List Tok := [Tok.eos, Tok.pad] ++ matras.map Tok.ch

/-- `torch.topk(v, k=2)` on an integer 0/1 vector, with the stable
tie-breaking torch uses on CPU (equal values are returned in increasing
index order): the first maximum, then the first maximum of the vector with
that position zeroed.  Returns `((value₁, value₂), (index₁, index₂))`. -/
def topk2 (v : List Nat) : (Nat × Nat) × (Nat × Nat) :=
  let m1 := v.foldr max 0
  let i1 := v.indexOf m1
  let v2 := v.set i1 0
  let m2 := v2.foldr max 0
  let i2 := v2.indexOf m2
  ((m1, m2), (i1, i2))

/-- Python `d in s` for the decoder's single-character reference strings:
the empty string (modelled `none`) is a substring of everything, and a
sentinel or character token matches only the character itself. -/
def inStr (o : Option Tok) (x : Char) : Bool :=
  match o with
  | none => true
  | some t => t = Tok.ch x

/-- A Python string that is either empty or one token, as a token list. -/
def optList : Option Tok → List Tok
  | none => []
  | some t => [t]

/-- The diacritic part of `_decode_grp`: threshold mask through
`torch.topk(·, 2)`, then the nukta / anusvara / visarga ordering special
cases (the final `else` emits only the first diacritic). -/
def dPart (dv : List Nat) : List Tok :=
  let mx := (topk2 dv).1
  let ix := (topk2 dv).2
  let d1 : Option Tok := if mx.1 ≠ 0 then some (dClasses.getD ix.1 Tok.eos) else none
  let d2 : Option Tok := if mx.2 ≠ 0 then some (dClasses.getD ix.2 Tok.eos) else none
  if inStr d1 '़' then optList d1 ++ optList d2
  else if inStr d2 '़' then optList d2 ++ optList d1
  else if inStr d1 'ं' then optList d2 ++ optList d1
  else if inStr d2 'ं' then optList d1 ++ optList d2
  else if inStr d1 'ः' then optList d2 ++ optList d1
  else if inStr d2 'ः' then optList d1 ++ optList d2
  else optList d1

/-- `HindiTokenizer._decode_grp` before the final `replace` calls: emit
half-character 2 then half-character 1 (each with a halant, skipped when
blank or pad), the full character, then the ordered diacritic part. -/
def decodeGrpToks (h2p h1p fp : Nat) (dv : List Nat) : List Tok :=
  let h2t := hClasses.getD h2p Tok.eos
  let h1t := hClasses.getD h1p Tok.eos
  let ft := fClasses.getD fp Tok.eos
  (if h2t ≠ Tok.blank ∧ h2t ≠ Tok.pad then [h2t, Tok.ch halanth] else []) ++
  (if h1t ≠ Tok.blank ∧ h1t ≠ Tok.pad then [h1t, Tok.ch halanth] else []) ++
  [ft] ++ dPart dv

/-- The `replace(BLANK, "").replace(PAD, "")` at the end of `_decode_grp`. -/
def stripBP (ts : List Tok) : List Tok :=
  ts.filter (fun t => decide (t ≠ Tok.blank ∧ t ≠ Tok.pad))

/-- `HindiTokenizer._decode_grp`. -/
def decodeGrp (h2p h1p fp : Nat) (dv : List Nat) : List Tok :=
  stripBP (decodeGrpToks h2p h1p fp dv)

/-- Character content of a sentinel-free decoded group. -/
def toChars (ts : List Tok) : List Char :=
  ts.filterMap (fun t => match t with | Tok.ch c => some c | _ => none)

/-- The per-batch-item loop of `decode`: decode each group position in
order, stop at the first group containing the EOS sentinel, concatenate
the rest. -/
def decodeLoop : List (Nat × Nat × Nat × List Nat) → List Char
  | [] => []
  | (a, b, f, dv) :: rest =>
    if Tok.eos ∈ decodeGrp a b f dv then []
    else toChars (decodeGrp a b f dv) ++ decodeLoop rest

/-- `HindiTokenizer.decode` on the exact distributions implied by an
encoded label (the idealized "perfect classifier" inputs of the spec): the
arg-max of the one-hot distribution of a class index is that index, and
the thresholded sigmoid mask of the ideal diacritic activations is the
stored multi-hot row, fed through `torch.topk(·, 2)`. -/
def decodeIdeal (e : EncodedLabel) : List Char :=
  decodeLoop (e.h2.zip (e.h1.zip (e.fC.zip e.diac)))

/-- The positions the `label_transform` scan visits: the label itself, and
the suffix left after consuming a non-empty group from a visited suffix. -/
inductive Reaches : List Char → List Char → Prop
  | refl (l : List Char) : Reaches l l
  | step {l r : List Char} : Reaches l r → r ≠ [] → (consumeGrp r).1 ≠ [] →
      Reaches l ((consumeGrp r).2)

/-- Possible half-character prefixes of a scanned group: zero, one or two
consonant+halant pairs. -/
def HPiece (hp : List Char) : Prop :=
  hp = [] ∨ (∃ c1, c1 ∈ vyanjan ∧ hp = [c1, halanth]) ∨
    (∃ c1 c2, c1 ∈ vyanjan ∧ c2 ∈ vyanjan ∧ hp = [c1, halanth, c2, halanth])

/-- Possible full-character parts of a scanned group. -/
def FPiece (fp : List Char) : Prop := fp = [] ∨ ∃ c, c ∈ fullChars ∧ fp = [c]

/-- Possible diacritic suffixes of a scanned group: zero, one or two
diacritics. -/
def DPiece (dp : List Char) : Prop :=
  dp = [] ∨ (∃ d1, d1 ∈ matras ∧ dp = [d1]) ∨
    (∃ d1 d2, d1 ∈ matras ∧ d2 ∈ matras ∧ dp = [d1, d2])

/-- Structure of every group the `label_transform` scan can emit. -/
def GrpShape (g : List Char) : Prop :=
  ∃ hp fp dp, g = hp ++ fp ++ dp ∧ HPiece hp ∧ FPiece fp ∧ DPiece dp

/-- The diacritic multi-hot vector `grp_class_encoder` builds for the
diacritic part of a group. -/
def encD (dp : List Char) : List Nat :=
  dp.foldl (fun v c => v.set (revD c) 1) (List.replicate dClassesLen 0)

/-- The half-character-2 class `grp_class_encoder` assigns for a given
half-character prefix: the pair far from the root, present only when
there are two pairs. -/
def encH2 (hp : List Char) : Nat :=
  match hp with
  | c1 :: _ :: _ :: _ :: _ => revHC c1
  | _ => blankId

/-- The half-character-1 class `grp_class_encoder` assigns: the pair
adjacent to the root, i.e. the last pair of the prefix. -/
def encH1 (hp : List Char) : Nat :=
  match hp with
  | _ :: _ :: c2 :: _ :: _ => revHC c2
  | c1 :: _ :: _ => revHC c1
  | _ => blankId

end Hindi

namespace Malayalam

/-- Vowel list `self.svar` of `MalayalamTokenizer`. -/
def svar : List Char :=
  ['അ', 'ആ', 'ഇ', 'ഈ', 'ഉ', 'ഊ', 'ഋ', 'എ', 'ഏ', 'ഐ', 'ഒ', 'ഓ', 'ഔ']

/-- Consonant list `self.vyanjan`. -/
def vyanjan : List Char :=
  ['ക', 'ഖ', 'ഗ', 'ഘ', 'ങ',
   'ച', 'ഛ', 'ജ', 'ഝ', 'ഞ',
   'ട', 'ഠ', 'ഡ', 'ഢ', 'ണ',
   'ത', 'ഥ', 'ദ', 'ധ', 'ന',
   'പ', 'ഫ', 'ബ', 'ഭ', 'മ',
   'യ', 'ര', 'ല', 'വ', 'ശ',
   'ഷ', 'സ', 'ഹ', 'ള', 'ഴ', 'റ']

/-- The single-character entries of `self.matras`.  The list in the source
also contains the two-codepoint entry `'ു്'`; a single scanned character
never equals that key, so it cannot affect the membership tests
`grp[i] in self.rev_d_label_map` modelled here. -/
def dSingle : List Char :=
  ['ാ', 'ി', 'ീ', 'ു', 'ൂ', 'ൃ', 'ൈ', 'ൗ', 'െ', 'േ', 'ം', 'ഃ', '഻']

/-- The halant (chandrakala) `self.halanth`. -/
def halanth : Char := '്'

/-- Punctuation list `self.chinh`. -/
def chinh : List Char := ['₹', '।', '!', '$', '%', '?', '.', ',', '-', '(', ')']

/-- Digit list `self.ank`. -/
def ank : List Char := ['൦', '൧', '൨', '൩', '൪', '൫', '൬', '൭', '൮', '൯']

/-- Chillu letters `self.chillaksharam`. -/
def chillaksharam : List Char := ['ൺ', 'ൻ', 'ർ', 'ൽ', 'ൾ']

/-- Character-valued keys of the Malayalam `rev_f_c_label_map`
(`vyanjan + svar + ank + chinh + chillaksharam`). -/
def fullChars : List Char := vyanjan ++ svar ++ ank ++ chinh ++ chillaksharam

/-- The `while` loop of `MalayalamTokenizer.grp_sanity` over one group,
walking the group by index `i` with counts `(h_c_count, f_c_count,
d_c_count)` and the seen-diacritics list.  `none` models an in-loop
`return False`.  In the halant-after-`'ു'` branch the Python code reads
`grp[i-1]`, which for `i = 0` is Python negative indexing, i.e. the last
character of the group. -/
def grpScan (g : List Char) (i : Nat) (h f d : Int) (seen : List Char) :
    Option (Int × Int × Int) :=
  if hi : i < g.length then
    let c := g.getD i ' '
    if c ∈ chillaksharam then
      if g.length ≠ 1 then none
      else grpScan g (i + 1) h (f - 1) d seen
    else if i + 1 < g.length ∧ g.getD (i + 1) ' ' = halanth ∧ c ∈ vyanjan ∧ h > 0 then
      grpScan g (i + 2) (h - 1) f d seen
    else if c ∈ fullChars ∧ f > 0 then
      grpScan g (i + 1) h (f - 1) d seen
    else if c ∈ dSingle ∧ d > 0 ∧ c ∉ seen then
      grpScan g (i + 1) h f (d - 1) (seen ++ [c])
    else if c ∈ dSingle ∧ d > 0 ∧ c ∈ seen then none
    else if c = halanth ∧ (if i = 0 then g.getD (g.length - 1) ' ' else g.getD (i - 1) ' ') = 'ു' then
      grpScan g (i + 2) h f d seen
    else none
  else some (h, f, d)
termination_by g.length - i
decreasing_by
  all_goals omega

/-- The per-group body of `MalayalamTokenizer.grp_sanity`, iterated over
the remaining groups; `all` is the full tuple (the source tests membership
of the current group, by value, in `grps[:len(grps)-1]`).  `some false` /
`some true` are the `return False` / `return True` paths; `none` models
the `IndexError` that `grp[len(grp)-1]` raises on an empty group. -/
def sanityLoop (all : List (List Char)) : List (List Char) → Option Bool
  | [] => some true
  | g :: rest =>
    if g = [] then none
    else if g.getD (g.length - 1) ' ' = halanth ∧ g ∈ all.dropLast then some false
    else
      match grpScan g 0 3 1 3 [] with
      | none => some false
      | some (_, f, _) =>
        if f = 1 then
          if g.getD (g.length - 1) ' ' = halanth then some true else some false
        else sanityLoop all rest

/-- `MalayalamTokenizer.grp_sanity` (the `label` argument only feeds
diagnostic prints and is omitted). -/
def grpSanity (grps : List (List Char)) : Option Bool := sanityLoop grps grps

end Malayalam

namespace Hindi

theorem takeHC_append (l : List Char) : (takeHC l).1 ++ (takeHC l).2 = l := by
  cases l with
  | nil => rfl
  | cons c1 rest =>
    cases rest with
    | nil => rfl
    | cons c2 r =>
      simp only [takeHC]
      split <;> simp

theorem takeFC_append (l : List Char) : (takeFC l).1 ++ (takeFC l).2 = l := by
  cases l with
  | nil => rfl
  | cons c r =>
    simp only [takeFC]
    split <;> simp

theorem takeDC_append (l : List Char) : (takeDC l).1 ++ (takeDC l).2 = l := by
  cases l with
  | nil => rfl
  | cons c r =>
    simp only [takeDC]
    split <;> simp

theorem consumeGrp_append (l : List Char) : (consumeGrp l).1 ++ (consumeGrp l).2 = l := by
  unfold consumeGrp
  simp only [List.append_assoc, takeHC_append, takeFC_append, takeDC_append]

/-- Every character the scan consumes ends up in the emitted groups, in
order: a successful scan's groups concatenate back to the label. -/
theorem labelTransformAux_flatten (fuel : Nat) (l : List Char) (gs : List (List Char))
    (h : labelTransformAux fuel l = some gs) : gs.flatten = l := by
  induction fuel, l using labelTransformAux.induct generalizing gs with
  | case1 fuel =>
    simp only [labelTransformAux, Option.some.injEq] at h
    subst h; rfl
  | case2 c cs =>
    exact Option.noConfusion h
  | case3 fuel c cs hemp =>
    rw [labelTransformAux, if_pos hemp] at h
    exact Option.noConfusion h
  | case4 fuel c cs hemp ih =>
    rw [labelTransformAux, if_neg hemp] at h
    rw [Option.map_eq_some'] at h
    obtain ⟨gs', hgs', rfl⟩ := h
    simp only [List.flatten_cons, ih gs' hgs', consumeGrp_append]

/-- A non-empty `label_transform` result comes from a successful scan that
also passed `grp_sanity`. -/
theorem labelTransform_success (l : List Char) (gs : List (List Char))
    (h : labelTransform l = gs) (hne : gs ≠ []) :
    labelTransformAux l.length l = some gs ∧ grpSanity gs = true := by
  unfold labelTransform at h
  rcases haux : labelTransformAux l.length l with _ | gs0
  · simp only [haux] at h
    exact absurd h.symm hne
  · simp only [haux] at h
    by_cases hs : grpSanity gs0
    · rw [if_pos hs] at h
      subst h
      exact ⟨rfl, hs⟩
    · rw [if_neg hs] at h
      exact absurd h.symm hne

/-- A scan position from which nothing can be consumed makes the scan
fail, whatever fuel remains. -/
theorem labelTransformAux_stuck (fuel : Nat) (r : List Char) (hne : r ≠ [])
    (hstuck : (consumeGrp r).1 = []) : labelTransformAux fuel r = none := by
  cases r with
  | nil => exact absurd rfl hne
  | cons c cs =>
    cases fuel with
    | zero => rfl
    | succ fuel => rw [labelTransformAux, if_pos hstuck]

/-- Scan failure propagates backwards along reachability: if the scan
fails from a visited suffix, it fails from the whole label. -/
theorem reaches_none {l r : List Char} (hreach : Reaches l r) :
    (∀ fuel, r.length ≤ fuel → labelTransformAux fuel r = none) →
    ∀ fuel, l.length ≤ fuel → labelTransformAux fuel l = none := by
  induction hreach with
  | refl => exact fun hfail => hfail
  | @step r hr hrne hgrp ih =>
    intro hfail
    refine ih (fun fuel hfuel => ?_)
    cases r with
    | nil => exact absurd rfl hrne
    | cons c cs =>
      cases fuel with
      | zero => simp at hfuel
      | succ fuel =>
        rw [labelTransformAux, if_neg hgrp]
        have hlen : (consumeGrp (c :: cs)).1.length + (consumeGrp (c :: cs)).2.length
            = cs.length + 1 := by
          rw [← List.length_append, consumeGrp_append]; rfl
        have hpos : (consumeGrp (c :: cs)).1.length ≠ 0 := by
          intro hc
          exact hgrp (List.length_eq_zero.mp hc)
        have : (consumeGrp (c :: cs)).2.length ≤ fuel := by
          simp only [List.length_cons] at hfuel
          omega
        rw [hfail fuel this]
        rfl

end Hindi

/-- C9: for every Hindi label that segments successfully into a group
sequence, re-running `label_transform` on the concatenation of those
groups reproduces the same group sequence (the scan consumes contiguous
substrings, so the concatenation is the original label). -/
theorem hindi_segmentation_idempotent (l : List Char) (gs : List (List Char))
    (h : Hindi.labelTransform l = gs) (hne : gs ≠ []) :
    Hindi.labelTransform gs.flatten = gs := by
  obtain ⟨haux, _⟩ := Hindi.labelTransform_success l gs h hne
  rw [Hindi.labelTransformAux_flatten l.length l gs haux, h]

/-- Witness for C9 at the two-group label "कख". -/
theorem hindi_segmentation_idempotent_witness :
    Hindi.labelTransform (List.flatten [['क'], ['ख']]) = [['क'], ['ख']] :=
  hindi_segmentation_idempotent ['क', 'ख'] [['क'], ['ख']] (by decide) (by decide)

/-- C6: if at some position the scan of `label_transform` consumes zero
characters (no half-character, full-character or diacritic matches there),
the whole label is rejected: `label_transform` returns the empty tuple. -/
theorem hindi_zero_consumption_rejects (l r : List Char)
    (hreach : Hindi.Reaches l r) (hne : r ≠ [])
    (hstuck : (Hindi.consumeGrp r).1 = []) :
    Hindi.labelTransform l = [] := by
  have hfail : ∀ fuel, r.length ≤ fuel → Hindi.labelTransformAux fuel r = none :=
    fun fuel _ => Hindi.labelTransformAux_stuck fuel r hne hstuck
  have := Hindi.reaches_none hreach hfail l.length (Nat.le_refl _)
  unfold Hindi.labelTransform
  rw [this]

/-- Witness for C6: in "अ।्" the scan consumes the group "अ", then at "।्"
nothing matches (the '।' cannot be a full character because a halant
follows it), so the whole label is rejected. -/
theorem hindi_zero_consumption_rejects_witness :
    Hindi.labelTransform ['अ', '।', '्'] = [] :=
  hindi_zero_consumption_rejects ['अ', '।', '्'] ['।', '्']
    (by
      have h1 : Hindi.Reaches ['अ', '।', '्'] ['अ', '।', '्'] :=
        Hindi.Reaches.refl _
      have h2 := Hindi.Reaches.step h1 (by decide) (by decide)
      have he : (Hindi.consumeGrp ['अ', '।', '्']).2 = ['।', '्'] := by decide
      rwa [he] at h2)
    (by decide) (by decide)

/-- C4 (evaluation at the failing input): the group "कीाा" contains the
diacritic 'ा' twice, yet `grp_sanity` accepts it — the third-diacritic
branch forgets to record the second diacritic in `d_seen`, so the
duplicate goes undetected.  This contradicts the validator's documented
"at most 2 diacritics" contract and the duplicate-diacritic rejection the
adjacent branch implements. -/
theorem hindi_grp_sanity_duplicate_diacritic_bug :
    Hindi.grpSanity [['क', 'ी', 'ा', 'ा']] = true := by decide

/-- C5 (evaluation at the failing input): the group "क्क्क्क" contains
three consonant+halant pairs, above the documented Hindi maximum of two,
yet `grp_sanity` accepts it — once `h_c_count` is exhausted the third
half-consonant is consumed as the full character and the stray halant
falls into a diagnostic-print branch that fails to return `False`. -/
theorem hindi_grp_sanity_three_halfchars_bug :
    Hindi.grpSanity [['क', '्', 'क', '्', 'क', '्', 'क']] = true := by decide

namespace Hindi

theorem halanth_not_matras : halanth ∉ matras := by decide

theorem matras_not_vyanjan : ∀ c ∈ matras, c ∉ vyanjan := by decide

theorem matras_not_fullChars : ∀ c ∈ matras, c ∉ fullChars := by decide

theorem fullChars_not_matras : ∀ c ∈ fullChars, c ∉ matras := by decide

theorem vyanjan_not_matras : ∀ c ∈ vyanjan, c ∉ matras := by decide

theorem matras_ne_halanth : ∀ c ∈ matras, c ≠ halanth := by decide

theorem takeHC_cases (l : List Char) :
    ((takeHC l).1 = [] ∧ (takeHC l).2 = l) ∨
    (∃ c1 r, c1 ∈ vyanjan ∧ (takeHC l).1 = [c1, halanth] ∧
      l = c1 :: halanth :: r ∧ (takeHC l).2 = r) := by
  cases l with
  | nil => exact Or.inl ⟨rfl, rfl⟩
  | cons c1 rest =>
    cases rest with
    | nil => exact Or.inl ⟨rfl, rfl⟩
    | cons c2 r =>
      by_cases h : c1 ∈ vyanjan ∧ c2 = halanth
      · obtain ⟨hc1, rfl⟩ := h
        refine Or.inr ⟨c1, r, hc1, ?_, rfl, ?_⟩ <;> simp [takeHC, hc1]
      · exact Or.inl ⟨by simp only [takeHC, if_neg h], by simp only [takeHC, if_neg h]⟩

theorem takeFC_cases (l : List Char) :
    ((takeFC l).1 = [] ∧ (takeFC l).2 = l) ∨
    (∃ c r, c ∈ fullChars ∧ (takeFC l).1 = [c] ∧ l = c :: r ∧ (takeFC l).2 = r) := by
  cases l with
  | nil => exact Or.inl ⟨rfl, rfl⟩
  | cons c r =>
    by_cases h : c ∈ fullChars ∧ r.head? ≠ some halanth
    · exact Or.inr ⟨c, r, h.1, by simp only [takeFC, if_pos h], rfl,
        by simp only [takeFC, if_pos h]⟩
    · exact Or.inl ⟨by simp only [takeFC, if_neg h], by simp only [takeFC, if_neg h]⟩

theorem takeDC_cases (l : List Char) :
    ((takeDC l).1 = [] ∧ (takeDC l).2 = l) ∨
    (∃ c r, c ∈ matras ∧ (takeDC l).1 = [c] ∧ l = c :: r ∧ (takeDC l).2 = r) := by
  cases l with
  | nil => exact Or.inl ⟨rfl, rfl⟩
  | cons c r =>
    by_cases h : c ∈ matras
    · exact Or.inr ⟨c, r, h, by simp only [takeDC, if_pos h], rfl,
        by simp only [takeDC, if_pos h]⟩
    · exact Or.inl ⟨by simp only [takeDC, if_neg h], by simp only [takeDC, if_neg h]⟩

/-- Every group the scan consumes has the half / full / diacritic shape. -/
theorem consumeGrp_shape (l : List Char) : GrpShape (consumeGrp l).1 := by
  show GrpShape ((takeHC l).1 ++ (takeHC (takeHC l).2).1 ++
    (takeFC (takeHC (takeHC l).2).2).1 ++
    (takeDC (takeFC (takeHC (takeHC l).2).2).2).1 ++
    (takeDC (takeDC (takeFC (takeHC (takeHC l).2).2).2).2).1)
  have hp : HPiece ((takeHC l).1 ++ (takeHC (takeHC l).2).1) := by
    rcases takeHC_cases l with ⟨h1, h1r⟩ | ⟨c1, r1, hc1, h1, _, h1r⟩
    · rw [h1, h1r, h1]
      exact Or.inl rfl
    · rcases takeHC_cases (takeHC l).2 with ⟨h2, _⟩ | ⟨c2, r2, hc2, h2, _, _⟩
      · rw [h1, h2]
        exact Or.inr (Or.inl ⟨c1, hc1, rfl⟩)
      · rw [h1, h2]
        exact Or.inr (Or.inr ⟨c1, c2, hc1, hc2, rfl⟩)
  have fp : FPiece (takeFC (takeHC (takeHC l).2).2).1 := by
    rcases takeFC_cases (takeHC (takeHC l).2).2 with ⟨h3, _⟩ | ⟨c, r, hc, h3, _, _⟩
    · rw [h3]; exact Or.inl rfl
    · rw [h3]; exact Or.inr ⟨c, hc, rfl⟩
  have dp : DPiece ((takeDC (takeFC (takeHC (takeHC l).2).2).2).1 ++
      (takeDC (takeDC (takeFC (takeHC (takeHC l).2).2).2).2).1) := by
    rcases takeDC_cases (takeFC (takeHC (takeHC l).2).2).2 with ⟨h4, h4r⟩ |
      ⟨d1, r4, hd1, h4, _, h4r⟩
    · rw [h4, h4r, h4]
      exact Or.inl rfl
    · rcases takeDC_cases (takeDC (takeFC (takeHC (takeHC l).2).2).2).2 with ⟨h5, _⟩ |
        ⟨d2, r5, hd2, h5, _, _⟩
      · rw [h4, h5]
        exact Or.inr (Or.inl ⟨d1, hd1, rfl⟩)
      · rw [h4, h5]
        exact Or.inr (Or.inr ⟨d1, d2, hd1, hd2, rfl⟩)
  exact ⟨_, _, _, by simp only [List.append_assoc], hp, fp, dp⟩

/-- Every group a successful scan emits is non-empty and shaped. -/
theorem labelTransformAux_shape (fuel : Nat) (l : List Char) (gs : List (List Char))
    (h : labelTransformAux fuel l = some gs) :
    ∀ g ∈ gs, GrpShape g ∧ g ≠ [] := by
  induction fuel, l using labelTransformAux.induct generalizing gs with
  | case1 fuel =>
    simp only [labelTransformAux, Option.some.injEq] at h
    subst h
    intro g hg
    exact absurd hg (List.not_mem_nil g)
  | case2 c cs =>
    exact Option.noConfusion h
  | case3 fuel c cs hemp =>
    rw [labelTransformAux, if_pos hemp] at h
    exact Option.noConfusion h
  | case4 fuel c cs hemp ih =>
    rw [labelTransformAux, if_neg hemp] at h
    rw [Option.map_eq_some'] at h
    obtain ⟨gs', hgs', rfl⟩ := h
    intro g hg
    rcases List.mem_cons.mp hg with rfl | hg'
    · exact ⟨consumeGrp_shape _, hemp⟩
    · exact ih gs' hgs' g hg'

theorem sanityScan_hc (c : Char) (rest : List Char) (h f d : Int) (seen : List Char)
    (hc : c ∈ vyanjan) (hh : h > 0) :
    sanityScan (c :: halanth :: rest) h f d seen = sanityScan rest (h - 1) f d seen := by
  simp only [sanityScan]
  rw [if_pos ⟨trivial, hc, hh⟩]

theorem sanityStep_fc (c : Char) (h f d : Int) (seen : List Char)
    (hcf : c ∈ fullChars) (hf : f > 0) :
    sanityStep c h f d seen = some (h, f - 1, d, seen) := by
  rw [sanityStep, if_pos ⟨hcf, hf⟩]

theorem sanityScan_fc (c : Char) (rest : List Char) (h f d : Int) (seen : List Char)
    (hcf : c ∈ fullChars) (hf : f > 0) (hhd : rest.head? ≠ some halanth) :
    sanityScan (c :: rest) h f d seen = sanityScan rest h (f - 1) d seen := by
  cases rest with
  | nil =>
    simp only [sanityScan, sanityStep_fc c h f d seen hcf hf]
  | cons c2 rest2 =>
    have hne : ¬(c2 = halanth ∧ c ∈ vyanjan ∧ h > 0) := by
      intro hcon
      exact hhd (by rw [hcon.1]; rfl)
    simp only [sanityScan]
    rw [if_neg hne, sanityStep_fc c h f d seen hcf hf]

theorem sanityStep_dc_fresh (c : Char) (h f d : Int) (seen : List Char) (hcd : c ∈ matras)
    (hd : d = 2) :
    sanityStep c h f d seen = some (h, f, d - 1, seen ++ [c]) := by
  have hnf : c ∉ fullChars := matras_not_fullChars c hcd
  rw [sanityStep, if_neg (fun hcon => hnf hcon.1), if_pos ⟨hcd, hd⟩]

theorem sanityStep_dc_new (c : Char) (h f d : Int) (seen : List Char) (hcd : c ∈ matras)
    (hd : d ≠ 2) (hs : c ∉ seen) :
    sanityStep c h f d seen = some (h, f, d - 1, seen) := by
  have hnf : c ∉ fullChars := matras_not_fullChars c hcd
  rw [sanityStep, if_neg (fun hcon => hnf hcon.1), if_neg (fun hcon => hd hcon.2),
    if_pos ⟨hcd, hd, hs⟩]

theorem sanityStep_dc_dup (c : Char) (h f d : Int) (seen : List Char) (hcd : c ∈ matras)
    (hd : d ≠ 2) (hs : c ∈ seen) :
    sanityStep c h f d seen = none := by
  have hnf : c ∉ fullChars := matras_not_fullChars c hcd
  rw [sanityStep, if_neg (fun hcon => hnf hcon.1), if_neg (fun hcon => hd hcon.2),
    if_neg (fun hcon => hcon.2.2 hs), if_pos ⟨hcd, hd, hs⟩]

theorem sanityScan_cons_step (c : Char) (rest : List Char) (h f d : Int) (seen : List Char)
    (hnv : c ∉ vyanjan) (h' f' d' : Int) (seen' : List Char)
    (hstep : sanityStep c h f d seen = some (h', f', d', seen')) :
    sanityScan (c :: rest) h f d seen = sanityScan rest h' f' d' seen' := by
  cases rest with
  | nil =>
    simp only [sanityScan, hstep]
  | cons c2 rest2 =>
    simp only [sanityScan]
    rw [if_neg (fun hcon => hnv hcon.2.1), hstep]

theorem sanityScan_cons_fail (c : Char) (rest : List Char) (h f d : Int) (seen : List Char)
    (hnv : c ∉ vyanjan) (hstep : sanityStep c h f d seen = none) :
    sanityScan (c :: rest) h f d seen = none := by
  cases rest with
  | nil => simp only [sanityScan, hstep]
  | cons c2 rest2 =>
    simp only [sanityScan]
    rw [if_neg (fun hcon => hnv hcon.2.1), hstep]

/-- A shaped group with no full-character part always fails `grp_sanity`:
its scan leaves `f_c_count` at 1. -/
theorem grpOK_no_full (hp dp : List Char) (hhp : HPiece hp) (hdp : DPiece dp) :
    grpOK (hp ++ dp) = false := by
  have main : ∀ h : Int,
      (sanityScan dp h 1 2 [] = some (h, 1, 2) ∨ sanityScan dp h 1 2 [] = none ∨
       ∃ d', sanityScan dp h 1 2 [] = some (h, 1, d')) := by
    intro h
    rcases hdp with rfl | ⟨d1, hd1, rfl⟩ | ⟨d1, d2, hd1, hd2, rfl⟩
    · exact Or.inl rfl
    · rw [sanityScan_cons_step d1 [] h 1 2 [] (matras_not_vyanjan d1 hd1) h 1 1 [d1]
        (by rw [sanityStep_dc_fresh d1 h 1 2 [] hd1 rfl]; norm_num)]
      exact Or.inr (Or.inr ⟨1, rfl⟩)
    · rw [sanityScan_cons_step d1 [d2] h 1 2 [] (matras_not_vyanjan d1 hd1) h 1 1 [d1]
        (by rw [sanityStep_dc_fresh d1 h 1 2 [] hd1 rfl]; norm_num)]
      by_cases hs : d2 ∈ [d1]
      · rw [sanityScan_cons_fail d2 [] h 1 1 [d1] (matras_not_vyanjan d2 hd2)
          (sanityStep_dc_dup d2 h 1 1 [d1] hd2 (by decide) hs)]
        exact Or.inr (Or.inl rfl)
      · rw [sanityScan_cons_step d2 [] h 1 1 [d1] (matras_not_vyanjan d2 hd2) h 1 0 [d1]
          (by rw [sanityStep_dc_new d2 h 1 1 [d1] hd2 (by decide) hs]; norm_num)]
        exact Or.inr (Or.inr ⟨0, rfl⟩)
  have fin : ∀ h : Int, (match sanityScan dp h 1 2 [] with
      | none => false
      | some (h', f', d') => if f' = 1 ∨ (h' = 2 ∧ f' = 1 ∧ d' = 2) then false
        else true) = false := by
    intro h
    rcases main h with hm | hm | ⟨d', hm⟩ <;> simp [hm]
  rcases hhp with rfl | ⟨c1, hc1, rfl⟩ | ⟨c1, c2, hc1, hc2, rfl⟩
  · simpa only [List.nil_append, grpOK] using fin 2
  · simp only [List.cons_append, List.nil_append, grpOK]
    rw [sanityScan_hc c1 dp 2 1 2 [] hc1 (by decide)]
    simpa using fin (2 - 1)
  · simp only [List.cons_append, List.nil_append, grpOK]
    rw [sanityScan_hc c1 (c2 :: halanth :: dp) 2 1 2 [] hc1 (by decide),
      sanityScan_hc c2 dp (2 - 1) 1 2 [] hc2 (by norm_num)]
    simpa using fin (2 - 1 - 1)

/-- A shaped group whose two diacritics coincide always fails
`grp_sanity`: the duplicate is caught by the `d_seen` test. -/
theorem grpOK_dup (hp : List Char) (F d1 : Char) (hhp : HPiece hp)
    (hF : F ∈ fullChars) (hd1 : d1 ∈ matras) :
    grpOK (hp ++ F :: d1 :: d1 :: []) = false := by
  have hhd : (d1 :: d1 :: []).head? ≠ some halanth := by
    intro hcon
    rw [List.head?_cons, Option.some.injEq] at hcon
    exact matras_ne_halanth d1 hd1 hcon
  have tailEval : ∀ h f : Int, f > 0 → sanityScan (F :: d1 :: d1 :: []) h f 2 [] = none := by
    intro h f hf
    rw [sanityScan_fc F (d1 :: d1 :: []) h f 2 [] hF hf hhd]
    rw [sanityScan_cons_step d1 (d1 :: []) h (f - 1) 2 [] (matras_not_vyanjan d1 hd1)
      h (f - 1) 1 [d1] (by rw [sanityStep_dc_fresh d1 h (f - 1) 2 [] hd1 rfl]; norm_num)]
    rw [sanityScan_cons_fail d1 [] h (f - 1) 1 [d1] (matras_not_vyanjan d1 hd1)
      (sanityStep_dc_dup d1 h (f - 1) 1 [d1] hd1 (by decide)
        (List.mem_singleton.mpr rfl))]
  rcases hhp with rfl | ⟨c1, hc1, rfl⟩ | ⟨c1, c2, hc1, hc2, rfl⟩
  · simp only [List.nil_append, grpOK]
    rw [tailEval 2 1 (by decide)]
  · simp only [List.cons_append, List.nil_append, grpOK]
    rw [sanityScan_hc c1 _ 2 1 2 [] hc1 (by decide), tailEval (2 - 1) 1 (by decide)]
  · simp only [List.cons_append, List.nil_append, grpOK]
    rw [sanityScan_hc c1 _ 2 1 2 [] hc1 (by decide),
      sanityScan_hc c2 _ (2 - 1) 1 2 [] hc2 (by norm_num),
      tailEval (2 - 1 - 1) 1 (by decide)]

/-- From a shaped group that passes `grp_sanity`: the full character is
present and the diacritics (if two) are distinct. -/
theorem grpOK_structure (g : List Char) (hsh : GrpShape g) (hok : grpOK g = true) :
    ∃ hp F dp, g = hp ++ F :: dp ∧ HPiece hp ∧ F ∈ fullChars ∧ DPiece dp ∧
      (∀ d1 d2, dp = [d1, d2] → d1 ≠ d2) := by
  obtain ⟨hp, fp, dp, rfl, hhp, hfp, hdp⟩ := hsh
  rcases hfp with rfl | ⟨F, hF, rfl⟩
  · have hok' : grpOK (hp ++ dp) = true := by
      rw [show hp ++ dp = hp ++ [] ++ dp by simp]
      exact hok
    rw [grpOK_no_full hp dp hhp hdp] at hok'
    exact Bool.noConfusion hok'
  · refine ⟨hp, F, dp, by simp, hhp, hF, hdp, ?_⟩
    rintro d1 d2 rfl hdd
    subst hdd
    have hd1 : d1 ∈ matras := by
      rcases hdp with hc | ⟨x, hx, hc⟩ | ⟨x, y, hx, hy, hc⟩
      · exact absurd hc (by simp)
      · exact absurd hc (by simp)
      · rw [List.cons.injEq] at hc
        obtain ⟨rfl, _⟩ := hc
        exact hx
    rw [show hp ++ [F] ++ [d1, d1] = hp ++ F :: d1 :: d1 :: [] by simp] at hok
    rw [grpOK_dup hp F d1 hhp hF hd1] at hok
    exact Bool.noConfusion hok

end Hindi

namespace Hindi

theorem halanth_not_vyanjan : halanth ∉ vyanjan := by decide

theorem halanth_not_fullChars : halanth ∉ fullChars := by decide

theorem revHC_ne_blankId (c : Char) : revHC c ≠ blankId := by
  unfold revHC blankId
  omega

theorem revD_lt (c : Char) (hc : c ∈ matras) : revD c < dClassesLen := by
  have := List.indexOf_lt_length.mpr hc
  unfold revD dClassesLen
  omega

theorem revD_inj (c1 c2 : Char) (h1 : c1 ∈ matras) (h2 : c2 ∈ matras)
    (he : revD c1 = revD c2) : c1 = c2 := by
  unfold revD at he
  exact (List.indexOf_inj h1 h2).mp (by omega)

theorem DPiece_head (dp : List Char) (hdp : DPiece dp) : dp.head? ≠ some halanth := by
  rcases hdp with rfl | ⟨d1, hd1, rfl⟩ | ⟨d1, d2, hd1, hd2, rfl⟩
  · simp
  · simp only [List.head?_cons, ne_eq, Option.some.injEq]
    exact matras_ne_halanth d1 hd1
  · simp only [List.head?_cons, ne_eq, Option.some.injEq]
    exact matras_ne_halanth d1 hd1

theorem getD_replicate_zero (n i : Nat) : (List.replicate n (0 : Nat)).getD i 0 = 0 := by
  induction n generalizing i with
  | zero => rfl
  | succ n ih =>
    cases i with
    | zero => rfl
    | succ i => exact ih i

theorem getD_replicate_lt (n i d : Nat) (hi : i < n) :
    (List.replicate n (0 : Nat)).getD i d = 0 := by
  induction n generalizing i with
  | zero => omega
  | succ n ih =>
    cases i with
    | zero => rfl
    | succ i => exact ih i (by omega)

theorem sum_set_one (v : List Nat) (i : Nat) (hlt : i < v.length)
    (h0 : v.getD i 0 = 0) : (v.set i 1).sum = v.sum + 1 := by
  induction v generalizing i with
  | nil => simp at hlt
  | cons a t ih =>
    cases i with
    | zero =>
      have ha : a = 0 := h0
      simp [List.set, ha, Nat.add_comm]
    | succ i =>
      have : (t.set i 1).sum = t.sum + 1 :=
        ih i (by simpa using hlt) (by simpa [List.getD] using h0)
      simp [List.set, this, Nat.add_assoc]

theorem encScan_pair (c : Char) (rest : List Char) (h2 h1 : Nat) (f : Int)
    (dv : List Nat) (cntr : Nat) (hc : c ∈ vyanjan) (hcn : cntr < 2) :
    encScan (c :: halanth :: rest) h2 h1 f dv cntr =
      encScan rest (if h1 = blankId then h2 else h1) (revHC c) f dv (cntr + 1) := by
  simp only [encScan]
  rw [if_pos ⟨hc, rfl⟩]
  by_cases hb : h1 = blankId
  · rw [if_pos hb, if_pos hb,
      if_neg (fun hcon => halanth_not_vyanjan hcon.1),
      if_neg halanth_not_fullChars, if_neg halanth_not_matras, if_pos ⟨trivial, hcn⟩]
  · rw [if_neg hb, if_neg hb,
      if_neg (fun hcon => halanth_not_vyanjan hcon.1),
      if_neg halanth_not_fullChars, if_neg halanth_not_matras, if_pos ⟨trivial, hcn⟩]

theorem encScan_full (F : Char) (rest : List Char) (h2 h1 : Nat) (dv : List Nat)
    (cntr : Nat) (hF : F ∈ fullChars) (hhd : rest.head? ≠ some halanth) :
    encScan (F :: rest) h2 h1 (-1) dv cntr = encScan rest h2 h1 (revFC F) dv cntr := by
  simp only [encScan]
  rw [if_neg (fun hcon => hhd hcon.2), if_pos hF, if_pos trivial]

theorem encScan_dc (c : Char) (rest : List Char) (h2 h1 : Nat) (f : Int)
    (dv : List Nat) (cntr : Nat) (hc : c ∈ matras) (hdv : dv.getD (revD c) 1 = 0) :
    encScan (c :: rest) h2 h1 f dv cntr = encScan rest h2 h1 f (dv.set (revD c) 1) cntr := by
  simp only [encScan]
  rw [if_neg (fun hcon => matras_not_vyanjan c hc hcon.1),
    if_neg (matras_not_fullChars c hc), if_pos hc, if_pos hdv]

theorem encScan_dp (dp : List Char) (h2 h1 : Nat) (f : Int) (cntr : Nat)
    (hdp : DPiece dp) (hnd : ∀ d1 d2, dp = [d1, d2] → d1 ≠ d2) :
    encScan dp h2 h1 f (List.replicate dClassesLen 0) cntr = some (h2, h1, f, encD dp) := by
  rcases hdp with rfl | ⟨d1, hd1, rfl⟩ | ⟨d1, d2, hd1, hd2, rfl⟩
  · rfl
  · rw [encScan_dc d1 [] h2 h1 f _ cntr hd1
      (getD_replicate_lt _ _ 1 (revD_lt d1 hd1))]
    rfl
  · have hne : d1 ≠ d2 := hnd d1 d2 rfl
    have hrne : revD d2 ≠ revD d1 := fun he => hne (revD_inj d1 d2 hd1 hd2 he.symm)
    rw [encScan_dc d1 [d2] h2 h1 f _ cntr hd1
      (getD_replicate_lt _ _ 1 (revD_lt d1 hd1))]
    rw [encScan_dc d2 [] h2 h1 f _ cntr hd2 ?_]
    · rfl
    · rw [List.getD_eq_getElem?_getD, List.getElem?_set_ne hrne.symm,
        ← List.getD_eq_getElem?_getD]
      exact getD_replicate_lt _ _ 1 (revD_lt d2 hd2)

theorem encD_getD_zero (dp : List Char) (hdp : DPiece dp) (i : Nat) (hi : i < 2) :
    (encD dp).getD i 0 = 0 := by
  have hne : ∀ c ∈ matras, revD c ≠ i := by
    intro c _ hc
    unfold revD at hc
    omega
  rcases hdp with rfl | ⟨d1, hd1, rfl⟩ | ⟨d1, d2, hd1, hd2, rfl⟩
  · exact getD_replicate_zero _ _
  · show ((List.replicate dClassesLen 0).set (revD d1) 1).getD i 0 = 0
    rw [List.getD_eq_getElem?_getD, List.getElem?_set_ne (hne d1 hd1),
      ← List.getD_eq_getElem?_getD]
    exact getD_replicate_zero _ _
  · show (((List.replicate dClassesLen 0).set (revD d1) 1).set (revD d2) 1).getD i 0 = 0
    rw [List.getD_eq_getElem?_getD, List.getElem?_set_ne (hne d2 hd2),
      List.getElem?_set_ne (hne d1 hd1), ← List.getD_eq_getElem?_getD]
    exact getD_replicate_zero _ _

theorem encD_sum_le (dp : List Char) (hdp : DPiece dp)
    (hnd : ∀ d1 d2, dp = [d1, d2] → d1 ≠ d2) : (encD dp).sum ≤ 2 := by
  have hz : (List.replicate dClassesLen (0 : Nat)).sum = 0 := by decide
  rcases hdp with rfl | ⟨d1, hd1, rfl⟩ | ⟨d1, d2, hd1, hd2, rfl⟩
  · show (List.replicate dClassesLen (0 : Nat)).sum ≤ 2
    omega
  · show ((List.replicate dClassesLen 0).set (revD d1) 1).sum ≤ 2
    rw [sum_set_one _ _ (by rw [List.length_replicate]; exact revD_lt d1 hd1)
      (getD_replicate_zero _ _)]
    omega
  · have hne : d1 ≠ d2 := hnd d1 d2 rfl
    have hrne : revD d2 ≠ revD d1 := fun he => hne (revD_inj d1 d2 hd1 hd2 he.symm)
    show (((List.replicate dClassesLen 0).set (revD d1) 1).set (revD d2) 1).sum ≤ 2
    rw [sum_set_one _ _ (by rw [List.length_set, List.length_replicate]; exact revD_lt d2 hd2)
      (by rw [List.getD_eq_getElem?_getD, List.getElem?_set_ne hrne.symm,
        ← List.getD_eq_getElem?_getD]; exact getD_replicate_zero _ _)]
    rw [sum_set_one _ _ (by rw [List.length_replicate]; exact revD_lt d1 hd1)
      (getD_replicate_zero _ _)]
    omega

/-- Evaluation of `grp_class_encoder` on a structured group: the scan
succeeds and produces the ranked half-character classes, the full
character class and the diacritic multi-hot vector. -/
theorem grpClassEncoder_structured (hp : List Char) (F : Char) (dp : List Char)
    (hhp : HPiece hp) (hF : F ∈ fullChars) (hdp : DPiece dp)
    (hnd : ∀ d1 d2, dp = [d1, d2] → d1 ≠ d2) :
    grpClassEncoder (hp ++ F :: dp) = some (encH2 hp, encH1 hp, revFC F, encD dp) := by
  have hhd : dp.head? ≠ some halanth := DPiece_head dp hdp
  have hcast : ((revFC F : Nat) : Int) ≠ -1 := by omega
  have htn : ((revFC F : Nat) : Int).toNat = revFC F := by omega
  have hscan : encScan (hp ++ F :: dp) blankId blankId (-1)
      (List.replicate dClassesLen 0) 0 = some (encH2 hp, encH1 hp, (revFC F : Int), encD dp) := by
    rcases hhp with rfl | ⟨c1, hc1, rfl⟩ | ⟨c1, c2, hc1, hc2, rfl⟩
    · rw [List.nil_append, encScan_full F dp blankId blankId _ 0 hF hhd,
        encScan_dp dp blankId blankId _ 0 hdp hnd]
      rfl
    · show encScan (c1 :: halanth :: (F :: dp)) blankId blankId (-1) _ 0 = _
      rw [encScan_pair c1 (F :: dp) blankId blankId _ _ 0 hc1 (by decide), if_pos rfl,
        encScan_full F dp blankId (revHC c1) _ 1 hF hhd,
        encScan_dp dp blankId (revHC c1) _ 1 hdp hnd]
      rfl
    · show encScan (c1 :: halanth :: (c2 :: halanth :: (F :: dp))) blankId blankId (-1) _ 0 = _
      rw [encScan_pair c1 (c2 :: halanth :: (F :: dp)) blankId blankId _ _ 0 hc1 (by decide),
        if_pos rfl,
        encScan_pair c2 (F :: dp) blankId (revHC c1) _ _ 1 hc2 (by decide),
        if_neg (revHC_ne_blankId c1),
        encScan_full F dp (revHC c1) (revHC c2) _ 2 hF hhd,
        encScan_dp dp (revHC c1) (revHC c2) _ 2 hdp hnd]
      rfl
  unfold grpClassEncoder
  rw [hscan]
  simp only [if_neg hcast, if_pos (encD_sum_le dp hdp hnd), htn]

end Hindi

namespace Hindi

theorem getD_sentinels_map (pre : List Tok) (cs : List Char) (c : Char) (hc : c ∈ cs) :
    (pre ++ cs.map Tok.ch).getD (pre.length + cs.indexOf c) Tok.eos = Tok.ch c := by
  have hlt : cs.indexOf c < cs.length := List.indexOf_lt_length.mpr hc
  rw [List.getD_eq_getElem?_getD, List.getElem?_append_right (by omega),
    Nat.add_sub_cancel_left, List.getElem?_map, List.getElem?_eq_getElem hlt,
    List.getElem_indexOf hlt]
  rfl

theorem hClasses_getD (c : Char) (hc : c ∈ vyanjan) :
    hClasses.getD (revHC c) Tok.eos = Tok.ch c :=
  getD_sentinels_map [Tok.eos, Tok.pad, Tok.blank] vyanjan c hc

theorem fClasses_getD (c : Char) (hc : c ∈ fullChars) :
    fClasses.getD (revFC c) Tok.eos = Tok.ch c :=
  getD_sentinels_map [Tok.eos, Tok.pad] fullChars c hc

theorem stripBP_map_ch (l : List Char) : stripBP (l.map Tok.ch) = l.map Tok.ch := by
  unfold stripBP
  apply List.filter_eq_self.mpr
  intro a ha
  rcases List.mem_map.mp ha with ⟨c, _, rfl⟩
  simp

theorem toChars_map_ch (l : List Char) : toChars (l.map Tok.ch) = l := by
  induction l with
  | nil => rfl
  | cons c t ih =>
    simp only [toChars, List.map_cons, List.filterMap_cons] at ih ⊢
    rw [ih]

theorem eos_not_mem_map_ch (l : List Char) : Tok.eos ∉ l.map Tok.ch := by
  intro h
  rcases List.mem_map.mp h with ⟨c, _, hc⟩
  exact Tok.noConfusion hc

theorem dPart_encD_nil : dPart (encD []) = [] := by decide

theorem dPart_encD_single (d : Char) (hd : d ∈ matras) :
    dPart (encD [d]) = [Tok.ch d] := by
  fin_cases hd <;> decide

/-- Decoding the encoding of a structured group with at most one diacritic
reproduces the group. -/
theorem decodeGrp_structured (hp : List Char) (F : Char) (dp : List Char)
    (hhp : HPiece hp) (hF : F ∈ fullChars) (hdp : DPiece dp) (hlen : dp.length ≤ 1) :
    decodeGrp (encH2 hp) (encH1 hp) (revFC F) (encD dp) = (hp ++ F :: dp).map Tok.ch := by
  have hde : dPart (encD dp) = dp.map Tok.ch := by
    rcases hdp with rfl | ⟨d1, hd1, rfl⟩ | ⟨d1, d2, hd1, hd2, rfl⟩
    · exact dPart_encD_nil
    · rw [dPart_encD_single d1 hd1]
      rfl
    · simp at hlen
  have htoks : decodeGrpToks (encH2 hp) (encH1 hp) (revFC F) (encD dp) =
      (hp ++ F :: dp).map Tok.ch := by
    rcases hhp with rfl | ⟨c1, hc1, rfl⟩ | ⟨c1, c2, hc1, hc2, rfl⟩
    · have h2t : hClasses.getD (encH2 ([] : List Char)) Tok.eos = Tok.blank := by decide
      have h1t : hClasses.getD (encH1 ([] : List Char)) Tok.eos = Tok.blank := by decide
      simp only [decodeGrpToks, h2t, h1t, fClasses_getD F hF, hde]
      simp
    · have h2t : hClasses.getD (encH2 [c1, halanth]) Tok.eos = Tok.blank := by
        show hClasses.getD blankId Tok.eos = Tok.blank
        decide
      have h1t : hClasses.getD (encH1 [c1, halanth]) Tok.eos = Tok.ch c1 := by
        show hClasses.getD (revHC c1) Tok.eos = Tok.ch c1
        exact hClasses_getD c1 hc1
      simp only [decodeGrpToks, h2t, h1t, fClasses_getD F hF, hde]
      simp
    · have h2t : hClasses.getD (encH2 [c1, halanth, c2, halanth]) Tok.eos = Tok.ch c1 := by
        show hClasses.getD (revHC c1) Tok.eos = Tok.ch c1
        exact hClasses_getD c1 hc1
      have h1t : hClasses.getD (encH1 [c1, halanth, c2, halanth]) Tok.eos = Tok.ch c2 := by
        show hClasses.getD (revHC c2) Tok.eos = Tok.ch c2
        exact hClasses_getD c2 hc2
      simp only [decodeGrpToks, h2t, h1t, fClasses_getD F hF, hde]
      simp
  rw [decodeGrp, htoks, stripBP_map_ch]

end Hindi

namespace Hindi

theorem mapM_eq_map {α β : Type} (f : α → Option β) (v : α → β) (xs : List α)
    (h : ∀ x ∈ xs, f x = some (v x)) : xs.mapM f = some (xs.map v) := by
  induction xs with
  | nil => rfl
  | cons a t ih =>
    rw [List.mapM_cons, h a (List.mem_cons_self a t),
      ih (fun x hx => h x (List.mem_cons_of_mem a hx))]
    rfl

theorem getD_replicate_of_lt {α : Type} (n i : Nat) (d a : α) (hi : i < n) :
    (List.replicate n a).getD i d = a := by
  induction n generalizing i with
  | zero => omega
  | succ n ih =>
    cases i with
    | zero => rfl
    | succ i => exact ih i (by omega)

theorem getD_prop {α : Type} (xs : List α) (i : Nat) (d : α) (hi : i < xs.length)
    (P : α → Prop) (hall : ∀ x ∈ xs, P x) : P (xs.getD i d) := by
  rw [List.getD_eq_getElem xs d hi]
  exact hall _ (List.getElem_mem hi)

theorem writeFrom_shift {α : Type} (vs : List α) (a : α) (t : List α) (i : Nat) :
    writeFrom (a :: t) (i + 1) vs = a :: writeFrom t i vs := by
  induction vs generalizing a t i with
  | nil => rfl
  | cons w ws ih =>
    show writeFrom ((a :: t).set (i + 1) w) (i + 1 + 1) ws = a :: writeFrom (t.set i w) (i + 1) ws
    rw [List.set_cons_succ]
    exact ih a (t.set i w) (i + 1)

/-- The indexed assignment loop starting at 0 overwrites an initial
segment of the array. -/
theorem writeFrom_append {α : Type} (vs : List α) (arr : List α)
    (h : vs.length ≤ arr.length) :
    writeFrom arr 0 vs = vs ++ arr.drop vs.length := by
  induction vs generalizing arr with
  | nil => rfl
  | cons v vs ih =>
    cases arr with
    | nil => simp at h
    | cons a t =>
      show writeFrom ((a :: t).set 0 v) (0 + 1) vs = v :: vs ++ (a :: t).drop (vs.length + 1)
      rw [List.set_cons_zero, writeFrom_shift vs v t 0,
        ih t (by simpa using h)]
      rfl

theorem set_replicate_drop {α : Type} (m cnt : Nat) (p e : α) (h : cnt < m) :
    ((List.replicate m p).set cnt e).drop cnt = e :: List.replicate (m - cnt - 1) p := by
  rw [List.drop_set, if_neg (lt_irrefl cnt), Nat.sub_self, List.drop_replicate]
  have hm : m - cnt = (m - cnt - 1) + 1 := by omega
  rw [hm, List.replicate_succ, List.set_cons_zero]
  have hm2 : m - cnt - 1 + 1 - 1 = m - cnt - 1 := by omega
  rw [hm2]

/-- `label_encoder` in the padding regime (`group_count < max_grps`),
rewritten from the in-place assignments to the explicit list form. -/
theorem labelEncoder_pad_eq (l : List Char) (m : Nat) (gs : List (List Char))
    (encs : List (Nat × Nat × Nat × List Nat))
    (hgs : labelTransform l = gs) (hlt : gs.length < m)
    (hencs : gs.mapM grpClassEncoder = some encs) (hlen : encs.length = gs.length) :
    labelEncoder l m = some
      { h2 := encs.map (fun e => e.1) ++
          eosId :: List.replicate (m - gs.length - 1) padId,
        h1 := encs.map (fun e => e.2.1) ++
          eosId :: List.replicate (m - gs.length - 1) padId,
        fC := encs.map (fun e => e.2.2.1) ++
          eosId :: List.replicate (m - gs.length - 1) padId,
        diac := encs.map (fun e => e.2.2.2) ++
          (((List.replicate dClassesLen 0).set padId 1).set eosId 1) ::
          List.replicate (m - gs.length - 1) ((List.replicate dClassesLen 0).set padId 1),
        cnt := gs.length } := by
  unfold labelEncoder
  simp only [hgs, if_pos hlt, hencs]
  have hwf : ∀ (vals : List Nat),
      vals.length = gs.length →
      writeFrom ((List.replicate m padId).set gs.length eosId) 0 vals =
        vals ++ eosId :: List.replicate (m - gs.length - 1) padId := by
    intro vals hv
    have hle : vals.length ≤ ((List.replicate m padId).set gs.length eosId).length := by
      rw [List.length_set, List.length_replicate]
      omega
    rw [writeFrom_append vals _ hle, hv, set_replicate_drop m gs.length padId eosId hlt]
  have hwd : writeFrom ((List.replicate m ((List.replicate dClassesLen 0).set padId 1)).set
        gs.length (((List.replicate dClassesLen 0).set padId 1).set eosId 1)) 0
        (encs.map (fun e => e.2.2.2)) =
      encs.map (fun e => e.2.2.2) ++
        (((List.replicate dClassesLen 0).set padId 1).set eosId 1) ::
        List.replicate (m - gs.length - 1) ((List.replicate dClassesLen 0).set padId 1) := by
    have hle : (encs.map (fun e => e.2.2.2)).length ≤
        ((List.replicate m ((List.replicate dClassesLen 0).set padId 1)).set
          gs.length (((List.replicate dClassesLen 0).set padId 1).set eosId 1)).length := by
      rw [List.length_map, hlen, List.length_set, List.length_replicate]
      omega
    rw [writeFrom_append _ _ hle, List.length_map, hlen,
      set_replicate_drop m gs.length _ _ hlt]
  have hv1 : (encs.map (fun e => e.1)).length = gs.length := by
    rw [List.length_map, hlen]
  have hv2 : (encs.map (fun e => e.2.1)).length = gs.length := by
    rw [List.length_map, hlen]
  have hv3 : (encs.map (fun e => e.2.2.1)).length = gs.length := by
    rw [List.length_map, hlen]
  rw [hwf _ hv1, hwf _ hv2, hwf _ hv3, hwd]

/-- `label_encoder` in the truncation regime (`group_count ≥ max_grps`). -/
theorem labelEncoder_trunc_eq (l : List Char) (m : Nat) (gs : List (List Char))
    (encs : List (Nat × Nat × Nat × List Nat))
    (hgs : labelTransform l = gs) (hge : ¬gs.length < m)
    (hencs : (gs.take m).mapM grpClassEncoder = some encs) (hlen : encs.length = m) :
    labelEncoder l m = some
      { h2 := encs.map (fun e => e.1),
        h1 := encs.map (fun e => e.2.1),
        fC := encs.map (fun e => e.2.2.1),
        diac := encs.map (fun e => e.2.2.2),
        cnt := (gs.take m).length } := by
  unfold labelEncoder
  simp only [hgs, if_neg hge, hencs]
  have hwf : ∀ (vals : List Nat), vals.length = m →
      writeFrom (List.replicate m padId) 0 vals = vals := by
    intro vals hv
    have hle : vals.length ≤ (List.replicate m padId).length := by
      rw [List.length_replicate]
      omega
    rw [writeFrom_append vals _ hle, hv, List.drop_replicate, Nat.sub_self]
    simp
  have hwd : writeFrom (List.replicate m ((List.replicate dClassesLen 0).set padId 1)) 0
      (encs.map (fun e => e.2.2.2)) = encs.map (fun e => e.2.2.2) := by
    have hle : (encs.map (fun e => e.2.2.2)).length ≤
        (List.replicate m ((List.replicate dClassesLen 0).set padId 1)).length := by
      rw [List.length_map, hlen, List.length_replicate]
    rw [writeFrom_append _ _ hle, List.length_map, hlen, List.drop_replicate, Nat.sub_self]
    simp
  have hv1 : (encs.map (fun e => e.1)).length = m := by
    rw [List.length_map, hlen]
  have hv2 : (encs.map (fun e => e.2.1)).length = m := by
    rw [List.length_map, hlen]
  have hv3 : (encs.map (fun e => e.2.2.1)).length = m := by
    rw [List.length_map, hlen]
  rw [hwf _ hv1, hwf _ hv2, hwf _ hv3, hwd]

/-- The decode loop stops at the padding-regime EOS row without emitting
anything. -/
theorem decodeLoop_eos_row (rest : List (Nat × Nat × Nat × List Nat)) :
    decodeLoop ((eosId, eosId, eosId,
      ((List.replicate dClassesLen 0).set padId 1).set eosId 1) :: rest) = [] := by
  simp only [decodeLoop]
  rw [if_pos (by decide)]

/-- The decode loop over rows that decode to sentinel-free groups emits
the concatenation of the groups. -/
theorem decodeLoop_groups (v : List Char → Nat × Nat × Nat × List Nat)
    (gs : List (List Char)) (suffix : List (Nat × Nat × Nat × List Nat))
    (hv : ∀ g ∈ gs, decodeGrp (v g).1 (v g).2.1 (v g).2.2.1 (v g).2.2.2 = g.map Tok.ch) :
    decodeLoop (gs.map v ++ suffix) = gs.flatten ++ decodeLoop suffix := by
  induction gs with
  | nil => rfl
  | cons g t ih =>
    have hg := hv g (List.mem_cons_self g t)
    simp only [List.map_cons, List.cons_append, decodeLoop, hg]
    rw [if_neg (eos_not_mem_map_ch g), toChars_map_ch]
    have := ih (fun x hx => hv x (List.mem_cons_of_mem g hx))
    simp only [List.append_eq] at this ⊢
    rw [this]
    simp [List.flatten_cons]

end Hindi

namespace Hindi

theorem encH2_cases (hp : List Char) (hhp : HPiece hp) :
    encH2 hp = blankId ∨ ∃ c, c ∈ vyanjan ∧ encH2 hp = revHC c := by
  rcases hhp with rfl | ⟨c1, hc1, rfl⟩ | ⟨c1, c2, hc1, hc2, rfl⟩
  · exact Or.inl rfl
  · exact Or.inl rfl
  · exact Or.inr ⟨c1, hc1, rfl⟩

theorem encH1_cases (hp : List Char) (hhp : HPiece hp) :
    encH1 hp = blankId ∨ ∃ c, c ∈ vyanjan ∧ encH1 hp = revHC c := by
  rcases hhp with rfl | ⟨c1, hc1, rfl⟩ | ⟨c1, c2, hc1, hc2, rfl⟩
  · exact Or.inl rfl
  · exact Or.inr ⟨c1, hc1, rfl⟩
  · exact Or.inr ⟨c2, hc2, rfl⟩

theorem filter_matras_structured (hp : List Char) (F : Char) (dp : List Char)
    (hhp : HPiece hp) (hF : F ∈ fullChars) (hdp : DPiece dp) :
    ((hp ++ F :: dp).filter (fun c => decide (c ∈ matras))).length = dp.length := by
  rw [List.filter_append]
  have h1 : hp.filter (fun c => decide (c ∈ matras)) = [] := by
    rcases hhp with rfl | ⟨c1, hc1, rfl⟩ | ⟨c1, c2, hc1, hc2, rfl⟩
    · rfl
    · simp [List.filter, vyanjan_not_matras c1 hc1, halanth_not_matras]
    · simp [List.filter, vyanjan_not_matras c1 hc1, vyanjan_not_matras c2 hc2,
        halanth_not_matras]
  have h2 : (F :: dp).filter (fun c => decide (c ∈ matras)) = dp := by
    rw [List.filter_cons, if_neg (by simp [fullChars_not_matras F hF])]
    apply List.filter_eq_self.mpr
    intro a ha
    rcases hdp with rfl | ⟨d1, hd1, hdc⟩ | ⟨d1, d2, hd1, hd2, hdc⟩
    · exact absurd ha (List.not_mem_nil a)
    · subst hdc
      rcases List.mem_singleton.mp ha with rfl
      simp [hd1]
    · subst hdc
      rcases List.mem_cons.mp ha with rfl | ha2
      · simp [hd1]
      · rcases List.mem_singleton.mp ha2 with rfl
        simp [hd2]
  rw [h1, h2]
  rfl

/-- Each group of a (possibly empty) `label_transform` result decomposes
into half pairs, a full character and distinct diacritics, and
`grp_class_encoder` succeeds on it with the ranked class values. -/
theorem labelTransform_good (l : List Char) :
    ∀ g ∈ labelTransform l, ∃ hp F dp, g = hp ++ F :: dp ∧ HPiece hp ∧ F ∈ fullChars ∧
      DPiece dp ∧ (∀ d1 d2, dp = [d1, d2] → d1 ≠ d2) ∧
      grpClassEncoder g = some (encH2 hp, encH1 hp, revFC F, encD dp) := by
  intro g hg
  unfold labelTransform at hg
  rcases haux : labelTransformAux l.length l with _ | gs0
  · simp only [haux] at hg
    exact absurd hg (List.not_mem_nil g)
  · simp only [haux] at hg
    by_cases hs : grpSanity gs0
    · rw [if_pos hs] at hg
      have hshape := labelTransformAux_shape l.length l gs0 haux g hg
      have hok : grpOK g = true := List.all_eq_true.mp hs g hg
      obtain ⟨hp, F, dp, hdecomp, hhp, hF, hdp, hnd⟩ := grpOK_structure g hshape.1 hok
      refine ⟨hp, F, dp, hdecomp, hhp, hF, hdp, hnd, ?_⟩
      rw [hdecomp]
      exact grpClassEncoder_structured hp F dp hhp hF hdp hnd
    · rw [if_neg hs] at hg
      exact absurd hg (List.not_mem_nil g)

theorem zip4_maps (encs : List (Nat × Nat × Nat × List Nat)) :
    (encs.map (fun e => e.1)).zip ((encs.map (fun e => e.2.1)).zip
      ((encs.map (fun e => e.2.2.1)).zip (encs.map (fun e => e.2.2.2)))) = encs := by
  rw [List.zip_map', List.zip_map', List.zip_map']
  simp only [Prod.mk.eta]
  simp

theorem zip4_maps_append (encs : List (Nat × Nat × Nat × List Nat))
    (S1 S2 S3 : List Nat) (S4 : List (List Nat)) :
    (encs.map (fun e => e.1) ++ S1).zip ((encs.map (fun e => e.2.1) ++ S2).zip
      ((encs.map (fun e => e.2.2.1) ++ S3).zip (encs.map (fun e => e.2.2.2) ++ S4))) =
    encs ++ S1.zip (S2.zip (S3.zip S4)) := by
  rw [List.zip_append (by simp), List.zip_append (by simp [List.length_zip]),
    List.zip_append (by simp [List.length_zip]), zip4_maps]

theorem getD_append_head {α : Type} (A R : List α) (x d : α) :
    (A ++ x :: R).getD A.length d = x := by
  rw [List.getD_append_right A _ d A.length (le_refl _), Nat.sub_self]
  rfl

theorem getD_append_after {α : Type} (A R : List α) (x d : α) (j : Nat)
    (hj : A.length < j) :
    (A ++ x :: R).getD j d = R.getD (j - A.length - 1) d := by
  rw [List.getD_append_right A _ d j (le_of_lt hj)]
  have hsub : j - A.length = (j - A.length - 1) + 1 := by omega
  rw [hsub]
  rfl

end Hindi

/-- C1 counterexample: the valid Hindi label "माँ" (one group, diacritics
'ा' and 'ँ') segments and validates successfully, but the idealized
decode of its encoding drops the candrabindu: no tie-break branch of
`_decode_grp` covers a diacritic pair without nukta, anusvara or visarga,
and the final `else` emits only the first predicted diacritic. -/
theorem hindi_round_trip_counterexample :
    Hindi.labelTransform ['म', 'ा', 'ँ'] = [['म', 'ा', 'ँ']] ∧
    (Hindi.labelEncoder ['म', 'ा', 'ँ'] 25).map Hindi.decodeIdeal = some ['म', 'ा'] ∧
    (['म', 'ा'] : List Char) ≠ ['म', 'ा', 'ँ'] :=
  ⟨by decide, by decide, by decide⟩

/-- C1 (amended): for every label that segments and validates
successfully into at most `max_grps` groups, with at most one diacritic
per group, feeding the exact distributions implied by `label_encoder`
into `decode` reproduces the original label. -/
theorem hindi_round_trip_restricted (l : List Char) (m : Nat) (gs : List (List Char))
    (h : Hindi.labelTransform l = gs) (hne : gs ≠ []) (hm : gs.length ≤ m)
    (hdia : ∀ g ∈ gs, (g.filter (fun c => decide (c ∈ Hindi.matras))).length ≤ 1) :
    (Hindi.labelEncoder l m).map Hindi.decodeIdeal = some l := by
  obtain ⟨haux, _⟩ := Hindi.labelTransform_success l gs h hne
  have hflat : gs.flatten = l := Hindi.labelTransformAux_flatten l.length l gs haux
  have hgood := Hindi.labelTransform_good l
  rw [h] at hgood
  have henc : ∀ g ∈ gs, Hindi.grpClassEncoder g =
      some ((Hindi.grpClassEncoder g).getD (0, 0, 0, ([] : List Nat))) := by
    intro g hg
    obtain ⟨hp, F, dp, _, _, _, _, _, he⟩ := hgood g hg
    rw [he]
    rfl
  have hdec : ∀ g ∈ gs,
      Hindi.decodeGrp ((Hindi.grpClassEncoder g).getD (0, 0, 0, ([] : List Nat))).1
        ((Hindi.grpClassEncoder g).getD (0, 0, 0, ([] : List Nat))).2.1
        ((Hindi.grpClassEncoder g).getD (0, 0, 0, ([] : List Nat))).2.2.1
        ((Hindi.grpClassEncoder g).getD (0, 0, 0, ([] : List Nat))).2.2.2 =
        g.map Hindi.Tok.ch := by
    intro g hg
    obtain ⟨hp, F, dp, hdecomp, hhp, hF, hdp, _, he⟩ := hgood g hg
    rw [he]
    simp only [Option.getD_some]
    have hlen1 : dp.length ≤ 1 := by
      have hd := hdia g hg
      rw [hdecomp, Hindi.filter_matras_structured hp F dp hhp hF hdp] at hd
      exact hd
    rw [hdecomp]
    exact Hindi.decodeGrp_structured hp F dp hhp hF hdp hlen1
  have hmapM : gs.mapM Hindi.grpClassEncoder =
      some (gs.map (fun g => (Hindi.grpClassEncoder g).getD (0, 0, 0, ([] : List Nat)))) :=
    Hindi.mapM_eq_map _ _ gs henc
  by_cases hlt : gs.length < m
  · rw [Hindi.labelEncoder_pad_eq l m gs _ h hlt hmapM (by rw [List.length_map])]
    simp only [Option.map_some', Option.some.injEq]
    unfold Hindi.decodeIdeal
    rw [Hindi.zip4_maps_append, List.zip_cons_cons, List.zip_cons_cons, List.zip_cons_cons,
      Hindi.decodeLoop_groups _ gs _ hdec, Hindi.decodeLoop_eos_row, hflat]
    simp
  · have hmeq : m = gs.length := by omega
    have htake : gs.take m = gs := by
      rw [hmeq]
      exact List.take_length gs
    rw [Hindi.labelEncoder_trunc_eq l m gs
      (gs.map (fun g => (Hindi.grpClassEncoder g).getD (0, 0, 0, ([] : List Nat)))) h hlt
      (by rw [htake]; exact hmapM) (by rw [List.length_map, hmeq])]
    simp only [Option.map_some', Option.some.injEq]
    unfold Hindi.decodeIdeal
    rw [Hindi.zip4_maps, ← List.append_nil
      (gs.map (fun g => (Hindi.grpClassEncoder g).getD (0, 0, 0, ([] : List Nat)))),
      Hindi.decodeLoop_groups _ gs _ hdec, hflat]
    simp [Hindi.decodeLoop]

/-- Witness for the amended C1 at the two-group label "क्खिम". -/
theorem hindi_round_trip_restricted_witness :
    (Hindi.labelEncoder ['क', '्', 'ख', 'ि', 'म'] 3).map Hindi.decodeIdeal =
      some ['क', '्', 'ख', 'ि', 'म'] :=
  hindi_round_trip_restricted ['क', '्', 'ख', 'ि', 'म'] 3
    [['क', '्', 'ख', 'ि'], ['म']] (by decide) (by decide) (by decide) (by decide)

/-- C2: a label whose segmentation produces at least `max_grps` groups is
truncated: the encoder returns exactly `max_grps` encoded groups and no
head holds the EOS sentinel anywhere. -/
theorem hindi_encoder_truncation (l : List Char) (m : Nat)
    (hge : m ≤ (Hindi.labelTransform l).length) :
    ∃ e, Hindi.labelEncoder l m = some e ∧ e.cnt = m ∧
      e.h2.length = m ∧ e.h1.length = m ∧ e.fC.length = m ∧ e.diac.length = m ∧
      ∀ i, i < m → e.h2.getD i 0 ≠ Hindi.eosId ∧ e.h1.getD i 0 ≠ Hindi.eosId ∧
        e.fC.getD i 0 ≠ Hindi.eosId ∧ (e.diac.getD i []).getD Hindi.eosId 0 = 0 := by
  have hgood := Hindi.labelTransform_good l
  have hgoodT : ∀ g ∈ (Hindi.labelTransform l).take m,
      ∃ hp F dp, g = hp ++ F :: dp ∧ Hindi.HPiece hp ∧ F ∈ Hindi.fullChars ∧
        Hindi.DPiece dp ∧ (∀ d1 d2, dp = [d1, d2] → d1 ≠ d2) ∧
        Hindi.grpClassEncoder g =
          some (Hindi.encH2 hp, Hindi.encH1 hp, Hindi.revFC F, Hindi.encD dp) :=
    fun g hg => hgood g (List.take_subset m _ hg)
  have henc : ∀ g ∈ (Hindi.labelTransform l).take m, Hindi.grpClassEncoder g =
      some ((Hindi.grpClassEncoder g).getD (0, 0, 0, ([] : List Nat))) := by
    intro g hg
    obtain ⟨hp, F, dp, _, _, _, _, _, he⟩ := hgoodT g hg
    rw [he]
    rfl
  have hmapM := Hindi.mapM_eq_map _ _ _ henc
  have hlenT : ((Hindi.labelTransform l).take m).length = m := by
    rw [List.length_take]
    omega
  rw [Hindi.labelEncoder_trunc_eq l m (Hindi.labelTransform l) _ rfl (by omega) hmapM
    (by rw [List.length_map, hlenT])]
  refine ⟨_, rfl, hlenT, ?_, ?_, ?_, ?_, ?_⟩
  · rw [List.length_map, List.length_map, hlenT]
  · rw [List.length_map, List.length_map, hlenT]
  · rw [List.length_map, List.length_map, hlenT]
  · rw [List.length_map, List.length_map, hlenT]
  intro i hi
  have hvals : ∀ g ∈ (Hindi.labelTransform l).take m,
      ((Hindi.grpClassEncoder g).getD (0, 0, 0, ([] : List Nat))).1 ≠ Hindi.eosId ∧
      ((Hindi.grpClassEncoder g).getD (0, 0, 0, ([] : List Nat))).2.1 ≠ Hindi.eosId ∧
      ((Hindi.grpClassEncoder g).getD (0, 0, 0, ([] : List Nat))).2.2.1 ≠ Hindi.eosId ∧
      (((Hindi.grpClassEncoder g).getD (0, 0, 0, ([] : List Nat))).2.2.2).getD
        Hindi.eosId 0 = 0 := by
    intro g hg
    obtain ⟨hp, F, dp, _, hhp, hF, hdp, _, he⟩ := hgoodT g hg
    rw [he]
    simp only [Option.getD_some]
    refine ⟨?_, ?_, ?_, ?_⟩
    · rcases Hindi.encH2_cases hp hhp with hc | ⟨c, _, hc⟩ <;> rw [hc]
      · decide
      · unfold Hindi.revHC Hindi.eosId
        omega
    · rcases Hindi.encH1_cases hp hhp with hc | ⟨c, _, hc⟩ <;> rw [hc]
      · decide
      · unfold Hindi.revHC Hindi.eosId
        omega
    · unfold Hindi.revFC Hindi.eosId
      omega
    · exact Hindi.encD_getD_zero dp hdp 0 (by decide)
  refine ⟨?_, ?_, ?_, ?_⟩
  · refine Hindi.getD_prop _ i 0 (by rw [List.length_map, List.length_map, hlenT]; omega)
      (fun x => x ≠ Hindi.eosId) ?_
    intro x hx
    rcases List.mem_map.mp hx with ⟨t, ht, rfl⟩
    rcases List.mem_map.mp ht with ⟨g, hg, rfl⟩
    exact (hvals g hg).1
  · refine Hindi.getD_prop _ i 0 (by rw [List.length_map, List.length_map, hlenT]; omega)
      (fun x => x ≠ Hindi.eosId) ?_
    intro x hx
    rcases List.mem_map.mp hx with ⟨t, ht, rfl⟩
    rcases List.mem_map.mp ht with ⟨g, hg, rfl⟩
    exact (hvals g hg).2.1
  · refine Hindi.getD_prop _ i 0 (by rw [List.length_map, List.length_map, hlenT]; omega)
      (fun x => x ≠ Hindi.eosId) ?_
    intro x hx
    rcases List.mem_map.mp hx with ⟨t, ht, rfl⟩
    rcases List.mem_map.mp ht with ⟨g, hg, rfl⟩
    exact (hvals g hg).2.2.1
  · refine Hindi.getD_prop _ i [] (by rw [List.length_map, List.length_map, hlenT]; omega)
      (fun x => x.getD Hindi.eosId 0 = 0) ?_
    intro x hx
    rcases List.mem_map.mp hx with ⟨t, ht, rfl⟩
    rcases List.mem_map.mp ht with ⟨g, hg, rfl⟩
    exact (hvals g hg).2.2.2

/-- Witness for C2 at the two-group label "कख" with `max_grps = 2`. -/
theorem hindi_encoder_truncation_witness :
    ∃ e, Hindi.labelEncoder ['क', 'ख'] 2 = some e ∧ e.cnt = 2 ∧
      e.h2.length = 2 ∧ e.h1.length = 2 ∧ e.fC.length = 2 ∧ e.diac.length = 2 ∧
      ∀ i, i < 2 → e.h2.getD i 0 ≠ Hindi.eosId ∧ e.h1.getD i 0 ≠ Hindi.eosId ∧
        e.fC.getD i 0 ≠ Hindi.eosId ∧ (e.diac.getD i []).getD Hindi.eosId 0 = 0 :=
  hindi_encoder_truncation ['क', 'ख'] 2 (by decide)

/-- Positions of a padded class-index head: EOS at the group count, PAD
at every later index below `max_grps`. -/
theorem head_pad_props (A : List Nat) (cnt m : Nat) (hA : A.length = cnt)
    (hlt : cnt < m) :
    (A ++ Hindi.eosId :: List.replicate (m - cnt - 1) Hindi.padId).getD cnt 0 =
      Hindi.eosId ∧
    ∀ i, cnt < i → i < m →
      (A ++ Hindi.eosId :: List.replicate (m - cnt - 1) Hindi.padId).getD i 0 =
        Hindi.padId := by
  subst hA
  refine ⟨Hindi.getD_append_head A _ _ 0, ?_⟩
  intro i h1 h2
  rw [Hindi.getD_append_after A _ _ 0 i h1,
    Hindi.getD_replicate_of_lt _ _ _ _ (by omega)]

/-- Positions of the padded diacritic head: the EOS row at the group
count has both the EOS bit and the PAD bit set, and every later row below
`max_grps` has the PAD bit set. -/
theorem diac_pad_props (A : List (List Nat)) (cnt m : Nat) (hA : A.length = cnt)
    (hlt : cnt < m) :
    ((A ++ (((List.replicate Hindi.dClassesLen 0).set Hindi.padId 1).set Hindi.eosId 1) ::
        List.replicate (m - cnt - 1)
          ((List.replicate Hindi.dClassesLen 0).set Hindi.padId 1)).getD cnt []).getD
      Hindi.eosId 0 = 1 ∧
    ((A ++ (((List.replicate Hindi.dClassesLen 0).set Hindi.padId 1).set Hindi.eosId 1) ::
        List.replicate (m - cnt - 1)
          ((List.replicate Hindi.dClassesLen 0).set Hindi.padId 1)).getD cnt []).getD
      Hindi.padId 0 = 1 ∧
    ∀ i, cnt < i → i < m →
      ((A ++ (((List.replicate Hindi.dClassesLen 0).set Hindi.padId 1).set Hindi.eosId 1) ::
          List.replicate (m - cnt - 1)
            ((List.replicate Hindi.dClassesLen 0).set Hindi.padId 1)).getD i []).getD
        Hindi.padId 0 = 1 := by
  subst hA
  refine ⟨?_, ?_, ?_⟩
  · rw [Hindi.getD_append_head A _ _ []]
    decide
  · rw [Hindi.getD_append_head A _ _ []]
    decide
  · intro i h1 h2
    rw [Hindi.getD_append_after A _ _ [] i h1,
      Hindi.getD_replicate_of_lt _ _ _ _ (by omega)]
    decide

/-- C3: a label producing fewer groups than `max_grps` gets the EOS
sentinel at index `group_count` in every head (in the diacritic row the
EOS bit is set) and the PAD sentinel at every later index (in the
diacritic rows the PAD bit is set). -/
theorem hindi_encoder_padding (l : List Char) (m : Nat)
    (hlt : (Hindi.labelTransform l).length < m) :
    ∃ e, Hindi.labelEncoder l m = some e ∧ e.cnt = (Hindi.labelTransform l).length ∧
      e.h2.getD e.cnt 0 = Hindi.eosId ∧ e.h1.getD e.cnt 0 = Hindi.eosId ∧
      e.fC.getD e.cnt 0 = Hindi.eosId ∧
      (e.diac.getD e.cnt []).getD Hindi.eosId 0 = 1 ∧
      ∀ i, e.cnt < i → i < m →
        e.h2.getD i 0 = Hindi.padId ∧ e.h1.getD i 0 = Hindi.padId ∧
        e.fC.getD i 0 = Hindi.padId ∧ (e.diac.getD i []).getD Hindi.padId 0 = 1 := by
  have hgood := Hindi.labelTransform_good l
  have henc : ∀ g ∈ Hindi.labelTransform l, Hindi.grpClassEncoder g =
      some ((Hindi.grpClassEncoder g).getD (0, 0, 0, ([] : List Nat))) := by
    intro g hg
    obtain ⟨hp, F, dp, _, _, _, _, _, he⟩ := hgood g hg
    rw [he]
    rfl
  have hmapM := Hindi.mapM_eq_map _ _ _ henc
  rw [Hindi.labelEncoder_pad_eq l m (Hindi.labelTransform l) _ rfl hlt hmapM
    (by rw [List.length_map])]
  have hA : ∀ (f : (Nat × Nat × Nat × List Nat) → Nat),
      (((Hindi.labelTransform l).map
        (fun g => (Hindi.grpClassEncoder g).getD (0, 0, 0, ([] : List Nat)))).map f).length =
      (Hindi.labelTransform l).length := fun f => by rw [List.length_map, List.length_map]
  have hAd : (((Hindi.labelTransform l).map
      (fun g => (Hindi.grpClassEncoder g).getD (0, 0, 0, ([] : List Nat)))).map
        (fun e => e.2.2.2)).length = (Hindi.labelTransform l).length := by
    rw [List.length_map, List.length_map]
  refine ⟨_, rfl, rfl,
    (head_pad_props _ _ m (hA (fun e => e.1)) hlt).1,
    (head_pad_props _ _ m (hA (fun e => e.2.1)) hlt).1,
    (head_pad_props _ _ m (hA (fun e => e.2.2.1)) hlt).1,
    (diac_pad_props _ _ m hAd hlt).1,
    fun i h1 h2 => ⟨(head_pad_props _ _ m (hA (fun e => e.1)) hlt).2 i h1 h2,
      (head_pad_props _ _ m (hA (fun e => e.2.1)) hlt).2 i h1 h2,
      (head_pad_props _ _ m (hA (fun e => e.2.2.1)) hlt).2 i h1 h2,
      (diac_pad_props _ _ m hAd hlt).2.2 i h1 h2⟩⟩

/-- Witness for C3 at the one-group label "क" with `max_grps = 3`. -/
theorem hindi_encoder_padding_witness :
    ∃ e, Hindi.labelEncoder ['क'] 3 = some e ∧ e.cnt = (Hindi.labelTransform ['क']).length ∧
      e.h2.getD e.cnt 0 = Hindi.eosId ∧ e.h1.getD e.cnt 0 = Hindi.eosId ∧
      e.fC.getD e.cnt 0 = Hindi.eosId ∧
      (e.diac.getD e.cnt []).getD Hindi.eosId 0 = 1 ∧
      ∀ i, e.cnt < i → i < 3 →
        e.h2.getD i 0 = Hindi.padId ∧ e.h1.getD i 0 = Hindi.padId ∧
        e.fC.getD i 0 = Hindi.padId ∧ (e.diac.getD i []).getD Hindi.padId 0 = 1 :=
  hindi_encoder_padding ['क'] 3 (by decide)

/-- C10: in the padding regime the diacritic row at index `group_count`
has both the EOS bit and the PAD bit set — the PAD column is pre-set for
every row and is not cleared when the EOS bit is written, so the EOS row
of the diacritic head is never one-hot. -/
theorem hindi_encoder_eos_row_not_one_hot (l : List Char) (m : Nat)
    (hlt : (Hindi.labelTransform l).length < m) :
    ∃ e, Hindi.labelEncoder l m = some e ∧
      (e.diac.getD e.cnt []).getD Hindi.eosId 0 = 1 ∧
      (e.diac.getD e.cnt []).getD Hindi.padId 0 = 1 := by
  have hgood := Hindi.labelTransform_good l
  have henc : ∀ g ∈ Hindi.labelTransform l, Hindi.grpClassEncoder g =
      some ((Hindi.grpClassEncoder g).getD (0, 0, 0, ([] : List Nat))) := by
    intro g hg
    obtain ⟨hp, F, dp, _, _, _, _, _, he⟩ := hgood g hg
    rw [he]
    rfl
  have hmapM := Hindi.mapM_eq_map _ _ _ henc
  rw [Hindi.labelEncoder_pad_eq l m (Hindi.labelTransform l) _ rfl hlt hmapM
    (by rw [List.length_map])]
  have hAd : (((Hindi.labelTransform l).map
      (fun g => (Hindi.grpClassEncoder g).getD (0, 0, 0, ([] : List Nat)))).map
        (fun e => e.2.2.2)).length = (Hindi.labelTransform l).length := by
    rw [List.length_map, List.length_map]
  exact ⟨_, rfl, (diac_pad_props _ _ m hAd hlt).1, (diac_pad_props _ _ m hAd hlt).2.1⟩

/-- Witness for C10 at the one-group label "ख" with `max_grps = 2`. -/
theorem hindi_encoder_eos_row_not_one_hot_witness :
    ∃ e, Hindi.labelEncoder ['ख'] 2 = some e ∧
      (e.diac.getD e.cnt []).getD Hindi.eosId 0 = 1 ∧
      (e.diac.getD e.cnt []).getD Hindi.padId 0 = 1 :=
  hindi_encoder_eos_row_not_one_hot ['ख'] 2 (by decide)

namespace Malayalam

theorem mem_dropLast_mid {α : Type} (pre : List α) (x r0 : α) (rest : List α) :
    x ∈ (pre ++ x :: r0 :: rest).dropLast := by
  rw [List.dropLast_append_cons, List.dropLast_cons₂]
  exact List.mem_append_right pre (List.mem_cons_self x _)

/-- Any group that ends in the halant and whose value occurs before the
last position makes the Malayalam validator loop fail (or, for a
malformed call, raise): it can never return `True`. -/
theorem sanityLoop_ne_true (all : List (List Char)) (rem : List (List Char))
    (pre : List (List Char)) (hsuffix : all = pre ++ rem) (g : List Char)
    (hg : g ∈ rem) (hbad : g ∈ all.dropLast)
    (hlast : g.getD (g.length - 1) ' ' = halanth) :
    sanityLoop all rem ≠ some true := by
  induction rem generalizing pre with
  | nil => exact absurd hg (List.not_mem_nil g)
  | cons x rest ih =>
    simp only [sanityLoop]
    by_cases hx0 : x = []
    · rw [if_pos hx0]
      exact fun hcon => Option.noConfusion hcon
    rw [if_neg hx0]
    by_cases hx1 : x.getD (x.length - 1) ' ' = halanth ∧ x ∈ all.dropLast
    · rw [if_pos hx1]
      intro hcon
      exact Bool.noConfusion (Option.some.inj hcon)
    rw [if_neg hx1]
    rcases hscan : grpScan x 0 3 1 3 [] with _ | ⟨h, f, d⟩
    · intro hcon
      exact Bool.noConfusion (Option.some.inj hcon)
    simp only []
    by_cases hf : f = 1
    · rw [if_pos hf]
      by_cases hxl : x.getD (x.length - 1) ' ' = halanth
      · rw [if_pos hxl]
        have hxnd : x ∉ all.dropLast := fun hmem => hx1 ⟨hxl, hmem⟩
        rcases List.mem_cons.mp hg with rfl | hgr
        · exact absurd hbad hxnd
        · rcases rest with _ | ⟨r0, rest'⟩
          · exact absurd hgr (List.not_mem_nil g)
          · have : x ∈ all.dropLast := by
              rw [hsuffix]
              exact mem_dropLast_mid pre x r0 rest'
            exact absurd this hxnd
      · rw [if_neg hxl]
        intro hcon
        exact Bool.noConfusion (Option.some.inj hcon)
    · rw [if_neg hf]
      rcases List.mem_cons.mp hg with rfl | hgr
      · exact absurd ⟨hlast, hbad⟩ hx1
      · exact ih (pre ++ [x]) (by rw [hsuffix]; simp) hgr

end Malayalam

/-- C7 counterexample: the Hindi group "कक्" ends in a halant with no
following consonant, Hindi has no word-final virama, yet `grp_sanity`
accepts the label: after the full character क is consumed, the pair
क+halant is consumed as a half-character and the scan ends with
`f_c_count = 0`, which passes the final check. -/
theorem trailing_halant_counterexample :
    Hindi.grpSanity [['क', 'क', '्']] = true := by decide

/-- C7 (amended): a group ending in the halant whose value occurs before
the last position always makes the Malayalam validator fail, and a Hindi
group consisting only of consonant+halant pairs (no full character) is
rejected in any position; but Hindi accepts halant-terminated groups that
contain a full character (see the counterexample). -/
theorem trailing_halant_validator :
    (∀ (grps : List (List Char)) (g : List Char), g ∈ grps.dropLast →
      g.getD (g.length - 1) ' ' = Malayalam.halanth →
      Malayalam.grpSanity grps ≠ some true) ∧
    (∀ (grps : List (List Char)) (g : List Char), g ∈ grps → g ≠ [] →
      Hindi.HPiece g → Hindi.grpSanity grps = false) := by
  constructor
  · intro grps g hg hlast
    exact Malayalam.sanityLoop_ne_true grps grps [] rfl g
      (List.dropLast_subset grps hg) hg hlast
  · intro grps g hg hne hhp
    have hgok : Hindi.grpOK g = false := by
      have := Hindi.grpOK_no_full g [] hhp (Or.inl rfl)
      rwa [List.append_nil] at this
    cases hval : Hindi.grpSanity grps with
    | false => rfl
    | true =>
      have := List.all_eq_true.mp hval g hg
      rw [hgok] at this
      exact Bool.noConfusion this

/-- Witness for the amended C7: Malayalam rejects a label whose first
group "ക്" ends in the halant, and Hindi rejects the bare half-character
group "क्" anywhere. -/
theorem trailing_halant_validator_witness :
    Malayalam.grpSanity [['ക', '്'], ['ക']] ≠ some true ∧
    Hindi.grpSanity [['क', '्'], ['क']] = false :=
  ⟨trailing_halant_validator.1 [['ക', '്'], ['ക']] ['ക', '്'] (by decide) (by decide),
   trailing_halant_validator.2 [['क', '्'], ['क']] ['क', '्']
     (List.mem_cons_self _ _) (by decide)
     (Or.inr (Or.inl ⟨'क', by decide, rfl⟩))⟩

/-- C8 counterexample: with the vowel sign 'ा' (class 2) and the
candrabindu 'ँ' (class 14) both active, `_decode_grp` emits only 'ा':
the pair matches no nukta / anusvara / visarga branch and the final
`else` drops the second diacritic, so the decoded group does not contain
both predicted diacritics. -/
theorem decode_diacritic_pair_counterexample :
    Hindi.decodeGrp Hindi.blankId Hindi.blankId (Hindi.revFC 'म')
        (((List.replicate Hindi.dClassesLen 0).set (Hindi.revD 'ा') 1).set
          (Hindi.revD 'ँ') 1) =
      [Hindi.Tok.ch 'म', Hindi.Tok.ch 'ा'] ∧
    Hindi.Tok.ch 'ँ' ∉
      Hindi.decodeGrp Hindi.blankId Hindi.blankId (Hindi.revFC 'म')
        (((List.replicate Hindi.dClassesLen 0).set (Hindi.revD 'ा') 1).set
          (Hindi.revD 'ँ') 1) :=
  ⟨by decide, by decide⟩

/-- C8 (amended): for any two active diacritic classes `i < j` (diacritic
class indices run from 2 to 17; 15 = anusvara 'ं', 16 = visarga 'ः',
17 = nukta '़'), the decoded diacritic part is deterministic: the nukta
is emitted first, anusvara and visarga are emitted after the other sign
(visarga before anusvara when both occur), and a pair of two plain signs
keeps only the lower-indexed one — the other is dropped, not reordered. -/
theorem decode_diacritic_pair_order :
    ∀ i, i < 18 → ∀ j, j < 18 → 2 ≤ i → i < j →
      Hindi.dPart (((List.replicate Hindi.dClassesLen 0).set i 1).set j 1) =
        (if j = 17 then [Hindi.dClasses.getD j Hindi.Tok.eos, Hindi.dClasses.getD i Hindi.Tok.eos]
         else if i = 15 then [Hindi.dClasses.getD j Hindi.Tok.eos, Hindi.dClasses.getD i Hindi.Tok.eos]
         else if j = 15 ∨ j = 16 then [Hindi.dClasses.getD i Hindi.Tok.eos, Hindi.dClasses.getD j Hindi.Tok.eos]
         else [Hindi.dClasses.getD i Hindi.Tok.eos]) := by decide

/-- Witness for the amended C8: vowel sign 'ा' (class 2) plus anusvara
'ं' (class 15) decode in canonical order, vowel sign first. -/
theorem decode_diacritic_pair_order_witness :
    Hindi.dPart (((List.replicate Hindi.dClassesLen 0).set 2 1).set 15 1) =
      (if (15 : Nat) = 17 then [Hindi.dClasses.getD 15 Hindi.Tok.eos, Hindi.dClasses.getD 2 Hindi.Tok.eos]
       else if (2 : Nat) = 15 then [Hindi.dClasses.getD 15 Hindi.Tok.eos, Hindi.dClasses.getD 2 Hindi.Tok.eos]
       else if (15 : Nat) = 15 ∨ (15 : Nat) = 16 then [Hindi.dClasses.getD 2 Hindi.Tok.eos, Hindi.dClasses.getD 15 Hindi.Tok.eos]
       else [Hindi.dClasses.getD 2 Hindi.Tok.eos]) :=
  decode_diacritic_pair_order 2 (by decide) 15 (by decide) (by decide) (by decide)

/-- The §8 concrete scenario: the bare consonant "क" forms one group
with no half-characters and no diacritics. -/
theorem hindi_single_consonant_scenario :
    Hindi.labelTransform ['क'] = [['क']] ∧
    Hindi.grpClassEncoder ['क'] =
      some (Hindi.blankId, Hindi.blankId, Hindi.revFC 'क',
        List.replicate Hindi.dClassesLen 0) := ⟨by decide, by decide⟩
